import Mathlib

/-!
Verification development for the LLM survey platform's job-orchestration core:
run-completion arbitration, deterministic job allocation, the optimistic job
claim protocol, the execute-question handler, JSON response repair, and
prompt variable substitution.  Definitions are shallow embeddings of the
TypeScript source (worker handlers, `lib/allocation`, `lib/json-repair`,
`lib/variable-substitution`, `worker/index`); database rows become explicit
records, database queries become list traversals, and `Date` values become an
abstract `Nat` timestamp supplied by the caller.
-/

namespace AiSurvey

/-- Job lifecycle status, mirroring the Prisma `JobStatus` enum. -/
inductive JobStatus where
  | PENDING
  | RUNNING
  | SUCCEEDED
  | FAILED
  | RETRYING
  | CANCELLED
deriving DecidableEq, Repr

/-- Job type, mirroring the Prisma `JobType` enum. -/
inductive JobType where
  | EXECUTE_QUESTION
  | ANALYZE_RESPONSE
  | EXPORT_RUN
deriving DecidableEq, Repr

/-- Survey-run lifecycle status, mirroring the Prisma `RunStatus` enum. -/
inductive RunStatus where
  | DRAFT
  | QUEUED
  | RUNNING
  | COMPLETED
  | FAILED
  | CANCELLED
deriving DecidableEq, Repr

/-- A row of the `Job` table, restricted to the columns the worker reads and
writes.  `createdAt` order is represented by the position in the job list. -/
structure JobRec where
  id : String
  runId : String
  type : JobType
  status : JobStatus
  attempt : Nat
  startedAt : Option Nat
  finishedAt : Option Nat
  lastError : Option String
  threadKey : String
  idempotencyKey : String
deriving DecidableEq, Repr

/-- The `SurveyRun` columns touched by the completion arbiter. -/
structure RunRecord where
  status : RunStatus
  completedAt : Option Nat
  createdById : String
deriving DecidableEq, Repr

/-- Whether a job status counts as still open for the completion check
(the `status: in ["PENDING", "RUNNING", "RETRYING"]` filter). -/
def openStatus (s : JobStatus) : Bool :=
  s = JobStatus.PENDING || s = JobStatus.RUNNING || s = JobStatus.RETRYING

/-- The `prisma.job.count` filter for execution jobs of a run that are still
open (`checkRunCompletion`, first query). -/
def isIncompleteExecJob (runId : String) (j : JobRec) : Bool :=
  j.runId = runId && j.type = JobType.EXECUTE_QUESTION && openStatus j.status

/-- The `prisma.job.count` filter for failed execution jobs of a run
(`checkRunCompletion`, second query). -/
def isFailedExecJob (runId : String) (j : JobRec) : Bool :=
  j.runId = runId && j.type = JobType.EXECUTE_QUESTION
    && j.status = JobStatus.FAILED

/-- The `prisma.job.count` filter for all execution jobs of a run
(`checkRunCompletion`, third query). -/
def isExecJob (runId : String) (j : JobRec) : Bool :=
  j.runId = runId && j.type = JobType.EXECUTE_QUESTION

/-- Shallow embedding of `checkRunCompletion` from
`worker/handlers/execute-question.ts`: count still-open execution jobs and
return early if any remain; otherwise count failed and total execution jobs,
re-check that the run is still `RUNNING` or `QUEUED`, and write the terminal
status (`FAILED` when every execution job failed, else `COMPLETED`) together
with the completion timestamp. -/
def checkRunCompletion (now : Nat) (runId : String) (jobs : List JobRec)
    (run : RunRecord) : RunRecord :=
  let incompleteJobs := (jobs.filter (isIncompleteExecJob runId)).length
  if incompleteJobs > 0 then run
  else
    let failedJobs := (jobs.filter (isFailedExecJob runId)).length
    let totalJobs := (jobs.filter (isExecJob runId)).length
    if run.status ≠ RunStatus.RUNNING ∧ run.status ≠ RunStatus.QUEUED then run
    else
      let allFailed := failedJobs = totalJobs
      let newStatus := if allFailed then RunStatus.FAILED else RunStatus.COMPLETED
      { run with status := newStatus, completedAt := some now }

/-- A failed execution job is in particular an execution job of the run. -/
theorem isFailedExecJob_imp_isExecJob (runId : String) (j : JobRec)
    (h : isFailedExecJob runId j = true) : isExecJob runId j = true := by
  simp only [isFailedExecJob, Bool.and_eq_true, decide_eq_true_eq] at h
  simp only [isExecJob, Bool.and_eq_true, decide_eq_true_eq]
  exact h.1

/-- Filtering with a stronger predicate yields at most as many elements. -/
theorem filter_length_mono {α : Type} (p q : α → Bool)
    (h : ∀ x, p x = true → q x = true) (l : List α) :
    (l.filter p).length ≤ (l.filter q).length := by
  induction l with
  | nil => simp
  | cons a l ih =>
    by_cases hp : p a = true
    · rw [List.filter_cons, List.filter_cons, if_pos hp, if_pos (h a hp)]
      simpa using ih
    · by_cases hq : q a = true
      · rw [List.filter_cons, List.filter_cons, if_neg hp, if_pos hq]
        simp only [List.length_cons]
        omega
      · rw [List.filter_cons, List.filter_cons, if_neg hp, if_neg hq]
        exact ih

/-- Counting lemma: the failed-execution-job count equals the total
execution-job count exactly when every execution job of the run has status
`FAILED`. -/
theorem failed_count_eq_total_iff (runId : String) (jobs : List JobRec) :
    (jobs.filter (isFailedExecJob runId)).length
        = (jobs.filter (isExecJob runId)).length
      ↔ ∀ j ∈ jobs, isExecJob runId j = true → j.status = JobStatus.FAILED := by
  induction jobs with
  | nil => simp
  | cons a l ih =>
    by_cases ha : isExecJob runId a = true
    · by_cases hf : isFailedExecJob runId a = true
      · have hst : a.status = JobStatus.FAILED := by
          simp only [isFailedExecJob, Bool.and_eq_true, decide_eq_true_eq] at hf
          exact hf.2
        simp [List.filter_cons, ha, hf, ih, hst]
      · have hlen : (l.filter (isFailedExecJob runId)).length
            ≤ (l.filter (isExecJob runId)).length :=
          filter_length_mono _ _ (isFailedExecJob_imp_isExecJob runId) l
        have hst : ¬ a.status = JobStatus.FAILED := by
          intro hc
          apply hf
          simp only [isFailedExecJob, isExecJob, Bool.and_eq_true,
            decide_eq_true_eq] at ha ⊢
          exact ⟨ha, hc⟩
        rw [List.filter_cons, List.filter_cons, if_neg hf, if_pos ha]
        simp only [List.length_cons]
        constructor
        · intro h
          omega
        · intro h
          exact absurd (h a (by simp) ha) hst
    · have hf : ¬ isFailedExecJob runId a = true := fun hc =>
        ha (isFailedExecJob_imp_isExecJob runId a hc)
      rw [List.filter_cons, List.filter_cons, if_neg hf, if_neg ha]
      rw [ih]
      constructor
      · intro h j hj hje
        cases hj with
        | head => exact absurd hje ha
        | tail _ hm => exact h j hm hje
      · intro h j hj hje
        exact h j (List.mem_cons_of_mem a hj) hje

/-- A still-open execution job is in particular an execution job of the run. -/
theorem isIncompleteExecJob_imp_isExecJob (runId : String) (j : JobRec)
    (h : isIncompleteExecJob runId j = true) : isExecJob runId j = true := by
  simp only [isIncompleteExecJob, Bool.and_eq_true, decide_eq_true_eq] at h
  simp only [isExecJob, Bool.and_eq_true, decide_eq_true_eq]
  exact ⟨h.1.1, h.1.2⟩

/-- A filtered list has positive length exactly when some member satisfies
the predicate. -/
theorem filter_length_pos_iff {α : Type} (p : α → Bool) (l : List α) :
    0 < (l.filter p).length ↔ ∃ x ∈ l, p x = true := by
  rw [List.length_pos]
  constructor
  · intro h
    rcases List.exists_mem_of_ne_nil _ h with ⟨x, hx⟩
    exact ⟨x, (List.mem_filter.mp hx).1, (List.mem_filter.mp hx).2⟩
  · rintro ⟨x, hxl, hpx⟩ hnil
    exact absurd (List.mem_filter.mpr ⟨hxl, hpx⟩) (by simp [hnil])

/-- The run row written by the completion arbiter: new terminal status plus
the completion timestamp, in one update. -/
def runResolved (run : RunRecord) (st : RunStatus) (now : Nat) : RunRecord :=
  { run with status := st, completedAt := some now }

/-- Full case analysis of `checkRunCompletion`, shared by the claims about
the completion arbiter. -/
theorem checkRunCompletion_cases (now : Nat) (runId : String)
    (jobs : List JobRec) (run : RunRecord) :
    ((run.status = RunStatus.QUEUED ∨ run.status = RunStatus.RUNNING) →
      ((∃ j ∈ jobs, isIncompleteExecJob runId j = true) →
          checkRunCompletion now runId jobs run = run)
      ∧ ((∀ j ∈ jobs, isIncompleteExecJob runId j = false) →
          ((∀ j ∈ jobs, isExecJob runId j = true → j.status = JobStatus.FAILED) →
              checkRunCompletion now runId jobs run
                = runResolved run RunStatus.FAILED now)
          ∧ ((∃ j ∈ jobs, isExecJob runId j = true ∧ j.status ≠ JobStatus.FAILED) →
              checkRunCompletion now runId jobs run
                = runResolved run RunStatus.COMPLETED now)))
    ∧ ((run.status = RunStatus.COMPLETED ∨ run.status = RunStatus.FAILED
          ∨ run.status = RunStatus.CANCELLED) →
        checkRunCompletion now runId jobs run = run) := by
  constructor
  · intro hopen
    have hguard : ¬ (run.status ≠ RunStatus.RUNNING ∧ run.status ≠ RunStatus.QUEUED) := by
      rcases hopen with h | h <;> simp [h]
    constructor
    · intro ⟨j, hjmem, hjinc⟩
      have hpos : 0 < (jobs.filter (isIncompleteExecJob runId)).length :=
        (filter_length_pos_iff _ _).mpr ⟨j, hjmem, hjinc⟩
      simp only [checkRunCompletion, if_pos hpos]
    · intro hnone
      have hzero : ¬ 0 < (jobs.filter (isIncompleteExecJob runId)).length := by
        rw [filter_length_pos_iff]
        rintro ⟨j, hjmem, hjinc⟩
        rw [hnone j hjmem] at hjinc
        exact Bool.false_ne_true hjinc
      constructor
      · intro hall
        have hcnt := (failed_count_eq_total_iff runId jobs).mpr hall
        simp only [checkRunCompletion, runResolved, if_neg hzero, if_neg hguard,
          if_pos hcnt]
      · intro ⟨j, hjmem, hjexec, hjnf⟩
        have hcnt : ¬ (jobs.filter (isFailedExecJob runId)).length
            = (jobs.filter (isExecJob runId)).length := by
          rw [failed_count_eq_total_iff]
          intro hall
          exact hjnf (hall j hjmem hjexec)
        simp only [checkRunCompletion, runResolved, if_neg hzero, if_neg hguard,
          if_neg hcnt]
  · intro hterm
    by_cases hpos : 0 < (jobs.filter (isIncompleteExecJob runId)).length
    · simp only [checkRunCompletion, if_pos hpos]
    · have hguard : run.status ≠ RunStatus.RUNNING ∧ run.status ≠ RunStatus.QUEUED := by
        rcases hterm with h | h | h <;> simp [h]
      simp only [checkRunCompletion, if_neg hpos, if_pos hguard]

/-- Claim C1.  For a run whose status is `QUEUED` or `RUNNING`, the
completion check after an execution job reaches a terminal state behaves as:
if any execution job of the run is still `PENDING`, `RUNNING` or `RETRYING`,
the run is left unchanged; if none remain and every execution job is
`FAILED`, the run becomes `FAILED`; otherwise (some execution job not
`FAILED`) it becomes `COMPLETED`, with the completion timestamp set; and for
a run already in a terminal status (`COMPLETED`, `FAILED`, `CANCELLED`) the
check changes nothing. -/
theorem c1_run_completion_arbiter (now : Nat) (runId : String)
    (jobs : List JobRec) (run : RunRecord) :
    ((run.status = RunStatus.QUEUED ∨ run.status = RunStatus.RUNNING) →
      ((∃ j ∈ jobs, isIncompleteExecJob runId j = true) →
          checkRunCompletion now runId jobs run = run)
      ∧ ((∀ j ∈ jobs, isIncompleteExecJob runId j = false) →
          ((∀ j ∈ jobs, isExecJob runId j = true → j.status = JobStatus.FAILED) →
              checkRunCompletion now runId jobs run
                = runResolved run RunStatus.FAILED now)
          ∧ ((∃ j ∈ jobs, isExecJob runId j = true ∧ j.status ≠ JobStatus.FAILED) →
              checkRunCompletion now runId jobs run
                = runResolved run RunStatus.COMPLETED now)))
    ∧ ((run.status = RunStatus.COMPLETED ∨ run.status = RunStatus.FAILED
          ∨ run.status = RunStatus.CANCELLED) →
        checkRunCompletion now runId jobs run = run) :=
  checkRunCompletion_cases now runId jobs run

/-- A sample open run used to instantiate the run-completion theorems. -/
def sampleQueuedRun : RunRecord :=
  { status := RunStatus.QUEUED, completedAt := none, createdById := "user-1" }

/-- A sample pending execution job used to instantiate the run-completion
theorems. -/
def samplePendingJob : JobRec :=
  { id := "job-1", runId := "run-1", type := JobType.EXECUTE_QUESTION,
    status := JobStatus.PENDING, attempt := 0, startedAt := none,
    finishedAt := none, lastError := none, threadKey := "tk-1",
    idempotencyKey := "ik-1" }

/-- Witness for claim C1: for a queued run with one still-pending execution
job, the completion check leaves the run unchanged. -/
theorem c1_run_completion_arbiter_witness :
    checkRunCompletion 7 "run-1" [samplePendingJob] sampleQueuedRun
      = sampleQueuedRun :=
  ((c1_run_completion_arbiter 7 "run-1" [samplePendingJob] sampleQueuedRun).1
      (Or.inl rfl)).1 ⟨samplePendingJob, by decide, by decide⟩

/-- Claim C10.  Invoking the completion check for a `QUEUED` or `RUNNING`
run that has zero execution jobs marks the run `FAILED` (the all-failed
comparison `0 = 0` holds vacuously) with the completion timestamp set; it
is neither `COMPLETED` nor left open. -/
theorem c10_empty_run_marked_failed (now : Nat) (runId : String)
    (jobs : List JobRec) (run : RunRecord)
    (hopen : run.status = RunStatus.QUEUED ∨ run.status = RunStatus.RUNNING)
    (hnone : jobs.filter (isExecJob runId) = []) :
    checkRunCompletion now runId jobs run
      = runResolved run RunStatus.FAILED now := by
  have hnoinc : ∀ j ∈ jobs, isIncompleteExecJob runId j = false := by
    intro j hj
    by_contra hcon
    have hinc : isIncompleteExecJob runId j = true := by
      revert hcon
      cases isIncompleteExecJob runId j <;> simp
    have hex : isExecJob runId j = true :=
      isIncompleteExecJob_imp_isExecJob runId j hinc
    have : j ∈ jobs.filter (isExecJob runId) := List.mem_filter.mpr ⟨hj, hex⟩
    rw [hnone] at this
    exact absurd this (List.not_mem_nil j)
  have hall : ∀ j ∈ jobs, isExecJob runId j = true → j.status = JobStatus.FAILED := by
    intro j hj hex
    have : j ∈ jobs.filter (isExecJob runId) := List.mem_filter.mpr ⟨hj, hex⟩
    rw [hnone] at this
    exact absurd this (List.not_mem_nil j)
  exact (((checkRunCompletion_cases now runId jobs run).1 hopen).2 hnoinc).1 hall

/-- Witness for claim C10: a queued run with an empty job list transitions to
`FAILED` with the completion timestamp set. -/
theorem c10_empty_run_marked_failed_witness :
    checkRunCompletion 3 "run-1" [] sampleQueuedRun
      = runResolved sampleQueuedRun RunStatus.FAILED 3 :=
  c10_empty_run_marked_failed 3 "run-1" [] sampleQueuedRun (Or.inl rfl) rfl

/-- Question mode, mirroring the Prisma `QuestionMode` enum. -/
inductive QuestionMode where
  | STATELESS
  | THREADED
deriving DecidableEq, Repr

/-- A `Question` row, restricted to the columns the allocation engine reads.
`threadKey` is the question's declared thread-group (nullable column). -/
structure Question where
  id : String
  title : String
  promptTemplate : String
  order : Int
  mode : QuestionMode
  threadKey : Option String
deriving DecidableEq, Repr

/-- A `Variable` row, restricted to the columns the allocation engine reads. -/
structure VariableRec where
  key : String
  defaultValue : Option String
deriving DecidableEq, Repr

/-- First character class of the placeholder regex
`\x7b\x7b([a-zA-Z_][a-zA-Z0-9_]*)\x7d\x7d`: an ASCII letter or underscore. -/
def isIdentStart (c : Char) : Bool :=
  c.isAlpha || c = '_'

/-- Continuation character class of the placeholder regex: an ASCII letter,
digit, or underscore. -/
def isIdentChar (c : Char) : Bool :=
  c.isAlphanum || c = '_'

/-- Attempt to read `key\x7d\x7d` at the current position, as the regex does
after the opening braces: a maximal identifier run (greedy, and backtracking
cannot help because an identifier character is never a closing brace)
followed by the two closing braces.  Returns the key and the remaining
input. -/
def parsePlaceholderKey (l : List Char) : Option (List Char × List Char) :=
  match l with
  | [] => none
  | c :: rs =>
    if isIdentStart c then
      let ident := c :: rs.takeWhile isIdentChar
      match rs.dropWhile isIdentChar with
      | '}' :: '}' :: rest => some (ident, rest)
      | _ => none
    else none

/-- Dropping a prefix cannot lengthen a list. -/
theorem dropWhile_length_le {α : Type} (p : α → Bool) (l : List α) :
    (l.dropWhile p).length ≤ l.length :=
  (List.dropWhile_suffix p).sublist.length_le

/-- A successful placeholder read consumes at least the closing braces. -/
theorem parsePlaceholderKey_length (l : List Char) (k rest : List Char)
    (h : parsePlaceholderKey l = some (k, rest)) : rest.length < l.length := by
  cases l with
  | nil => simp [parsePlaceholderKey] at h
  | cons c rs =>
    have hdw : (rs.dropWhile isIdentChar).length ≤ rs.length :=
      dropWhile_length_le _ _
    simp only [parsePlaceholderKey] at h
    split at h
    · split at h
      · next rest' heq =>
          simp only [Option.some.injEq, Prod.mk.injEq] at h
          rw [heq] at hdw
          simp only [List.length_cons] at hdw
          rw [← h.2]
          simp only [List.length_cons]
          omega
      · exact absurd h (by simp)
    · exact absurd h (by simp)

/-- Result of variable substitution, mirroring `SubstitutionResult` in
`lib/variable-substitution.ts`. -/
structure SubstitutionResult where
  result : String
  unresolved : List String
deriving DecidableEq, Repr

/-- Character-level scan of the global regex replace in
`substituteVariables`, with explicit fuel (any fuel at least the input
length is enough; the wrapper passes the input length): at each position,
attempt to match `\x7b\x7b([a-zA-Z_][a-zA-Z0-9_]*)\x7d\x7d`; on a match,
consult the variable map (`Object.hasOwn`) and emit either the replacement
value or the original placeholder (recording the key as unresolved); on no
match, emit one character and continue scanning at the next position.
Returns the rewritten text and the unresolved keys in callback order, with
duplicates. -/
def substScan (vars : String → Option String) :
    Nat → List Char → List Char × List String
  | 0, _ => ([], [])
  | _ + 1, [] => ([], [])
  | fuel + 1, '{' :: '{' :: rest =>
    match parsePlaceholderKey rest with
    | some (key, after) =>
      let (r, u) := substScan vars fuel after
      match vars (String.mk key) with
      | some v => (v.data ++ r, u)
      | none => ('{' :: '{' :: key ++ '}' :: '}' :: r, String.mk key :: u)
    | none =>
      let (r, u) := substScan vars fuel ('{' :: rest)
      ('{' :: r, u)
  | fuel + 1, c :: rest =>
    let (r, u) := substScan vars fuel rest
    (c :: r, u)

/-- Insertion-order deduplication, modelling `Array.from(new Set(keys))`. -/
def dedupFirst (l : List String) : List String :=
  (l.foldl (fun acc k => if k ∈ acc then acc else acc ++ [k]) [])

/-- Shallow embedding of `substituteVariables` from
`lib/variable-substitution.ts`.  The JS `Record<string, string>` of own
properties is modelled as a partial map `String → Option String`;
`Object.hasOwn(variables, key)` is `(vars key).isSome`, which is exactly why
prototype-inherited keys such as `toString` can never resolve. -/
def substituteVariables (template : String) (vars : String → Option String) :
    SubstitutionResult :=
  let (r, occ) := substScan vars template.data.length template.data
  { result := String.mk r, unresolved := dedupFirst occ }


/-- A template token: either a literal character or a `\x7b\x7bkey\x7d\x7d`
placeholder.  `renderTemplate` turns a token list into the template text the
source function receives. -/
inductive TemplateTok where
  | lit (c : Char)
  | ph (key : String)
deriving DecidableEq, Repr

/-- Render a token list into template text. -/
def renderTemplate : List TemplateTok → List Char
  | [] => []
  | TemplateTok.lit c :: ts => c :: renderTemplate ts
  | TemplateTok.ph k :: ts =>
    '{' :: '{' :: (k.data ++ '}' :: '}' :: renderTemplate ts)

/-- The expected output for one token: a literal passes through, a resolved
placeholder becomes its value, an unresolved one is left untouched. -/
def substTokOut (vars : String → Option String) : TemplateTok → List Char
  | TemplateTok.lit c => [c]
  | TemplateTok.ph k =>
    match vars k with
    | some v => v.data
    | none => '{' :: '{' :: (k.data ++ ['}', '}'])

/-- The unresolved keys of a token list, in order of occurrence and with
duplicates. -/
def unresolvedOcc (vars : String → Option String) : List TemplateTok → List String
  | [] => []
  | TemplateTok.lit _ :: ts => unresolvedOcc vars ts
  | TemplateTok.ph k :: ts =>
    match vars k with
    | some _ => unresolvedOcc vars ts
    | none => k :: unresolvedOcc vars ts

/-- A key the placeholder regex can actually match: a leading letter or
underscore followed by letters, digits, or underscores. -/
def ValidKey (k : String) : Prop :=
  match k.data with
  | [] => False
  | c :: cs => isIdentStart c = true ∧ ∀ x ∈ cs, isIdentChar x = true

/-- Well-formedness of a token: literal characters are not an opening brace
(so adjacent literals cannot spell an accidental placeholder opener), and
placeholder keys match the regex's key grammar. -/
def TokOk : TemplateTok → Prop
  | TemplateTok.lit c => c ≠ '{'
  | TemplateTok.ph k => ValidKey k

/-- Splitting a run of identifier characters off a rendered key: `takeWhile`
stops exactly at the closing brace. -/
theorem takeWhile_ident_append (cs zs : List Char)
    (hcs : ∀ x ∈ cs, isIdentChar x = true) :
    (cs ++ '}' :: zs).takeWhile isIdentChar = cs
      ∧ (cs ++ '}' :: zs).dropWhile isIdentChar = '}' :: zs := by
  have hbrace : isIdentChar '}' = false := by decide
  induction cs with
  | nil =>
    constructor
    · simp [List.takeWhile_cons, hbrace]
    · simp [List.dropWhile_cons, hbrace]
  | cons a l ih =>
    have ha : isIdentChar a = true := hcs a (by simp)
    have ihl := ih (fun x hx => hcs x (List.mem_cons_of_mem a hx))
    constructor
    · simp [List.cons_append, List.takeWhile_cons, ha, ihl.1]
    · simp [List.cons_append, List.dropWhile_cons, ha, ihl.2]

/-- Reading a placeholder key off a rendered placeholder succeeds and
consumes exactly through the closing braces. -/
theorem parsePlaceholderKey_render (k : String) (hk : ValidKey k)
    (zs : List Char) :
    parsePlaceholderKey (k.data ++ '}' :: '}' :: zs) = some (k.data, zs) := by
  unfold ValidKey at hk
  match hdata : k.data with
  | [] => rw [hdata] at hk; exact absurd hk (by simp)
  | c :: cs =>
    rw [hdata] at hk
    obtain ⟨hc, hcs⟩ := hk
    have h1 : (cs ++ '}' :: '}' :: zs).takeWhile isIdentChar = cs :=
      (takeWhile_ident_append cs ('}' :: zs) hcs).1
    have h2 : (cs ++ '}' :: '}' :: zs).dropWhile isIdentChar = '}' :: '}' :: zs :=
      (takeWhile_ident_append cs ('}' :: zs) hcs).2
    simp [List.cons_append, parsePlaceholderKey, hc, h1, h2]


/-- Scanning an empty input yields empty output. -/
theorem substScan_nil (vars : String → Option String) (fuel : Nat) :
    substScan vars fuel [] = ([], []) := by
  cases fuel <;> rfl

/-- Scanning a non-brace character emits it and continues. -/
theorem substScan_lit (vars : String → Option String) (fuel : Nat)
    (c : Char) (rest : List Char) (hc : c ≠ '{') :
    substScan vars (fuel + 1) (c :: rest)
      = ((c :: (substScan vars fuel rest).1), (substScan vars fuel rest).2) := by
  rw [substScan.eq_def]
  split
  · omega
  · next heq => simp at heq
  · next f r heq1 heq2 =>
      injection heq2 with h1 h2
      exact absurd h1 hc
  · next f c2 r heq1 heq2 =>
      injection heq1 with h1
      injection heq2 with h2 h3
      subst h1; subst h2; subst h3; rfl

/-- Scanning a rendered placeholder reads its key and rewrites according to
the variable map. -/
theorem substScan_ph (vars : String → Option String) (fuel : Nat)
    (k : String) (hk : ValidKey k) (rest : List Char) :
    substScan vars (fuel + 1) ('{' :: '{' :: (k.data ++ '}' :: '}' :: rest))
      = match vars k with
        | some v => (v.data ++ (substScan vars fuel rest).1,
            (substScan vars fuel rest).2)
        | none => ('{' :: '{' :: k.data ++ '}' :: '}' :: (substScan vars fuel rest).1,
            k :: (substScan vars fuel rest).2) := by
  have hp := parsePlaceholderKey_render k hk rest
  have hmk : String.mk k.data = k := rfl
  simp only [substScan, hp, hmk]


/-- The scan of a rendered well-formed template substitutes exactly
per-token: resolved placeholders are replaced by their values everywhere,
unresolved ones are left untouched and their keys collected in occurrence
order. -/
theorem substScan_render (vars : String → Option String)
    (toks : List TemplateTok) (hok : ∀ t ∈ toks, TokOk t) :
    ∀ fuel, (renderTemplate toks).length ≤ fuel →
      substScan vars fuel (renderTemplate toks)
        = (toks.flatMap (substTokOut vars), unresolvedOcc vars toks) := by
  induction toks with
  | nil =>
    intro fuel _
    simp [renderTemplate, substScan_nil, unresolvedOcc]
  | cons t ts ih =>
    have hts : ∀ x ∈ ts, TokOk x := fun x hx => hok x (List.mem_cons_of_mem t hx)
    have iht := ih hts
    cases t with
    | lit c =>
      intro fuel hf
      have hc : c ≠ '{' := hok (TemplateTok.lit c) (by simp)
      simp only [renderTemplate, List.length_cons] at hf
      obtain ⟨f, rfl⟩ : ∃ f, fuel = f + 1 := ⟨fuel - 1, by omega⟩
      rw [renderTemplate, substScan_lit vars f c _ hc,
        iht f (by omega)]
      simp [substTokOut, unresolvedOcc]
    | ph k =>
      intro fuel hf
      have hk : ValidKey k := hok (TemplateTok.ph k) (by simp)
      simp only [renderTemplate, List.length_cons, List.length_append] at hf
      obtain ⟨f, rfl⟩ : ∃ f, fuel = f + 1 := ⟨fuel - 1, by omega⟩
      rw [renderTemplate, substScan_ph vars f k hk _, iht f (by omega)]
      cases hv : vars k <;>
        simp [substTokOut, unresolvedOcc, hv]

/-- Claim C9.  Variable substitution over any well-formed template: every
placeholder whose key is an own entry of the map is replaced by its value
everywhere it occurs, every placeholder whose key is absent is left
untouched and its key reported in the unresolved list; and the concrete
examples from the spec, including that prototype-like keys such as
`toString` never resolve without an explicit matching entry (the variable
map models own properties only, exactly as `Object.hasOwn` checks). -/
theorem c9_variable_substitution (vars : String → Option String)
    (toks : List TemplateTok) (hok : ∀ t ∈ toks, TokOk t) :
    (substituteVariables (String.mk (renderTemplate toks)) vars
        = { result := String.mk (toks.flatMap (substTokOut vars)),
            unresolved := dedupFirst (unresolvedOcc vars toks) })
    ∧ substituteVariables "Hello \x7b\x7bname\x7d\x7d"
        (fun k => if k = "name" then some "World" else none)
        = { result := "Hello World", unresolved := [] }
    ∧ substituteVariables "\x7b\x7ba\x7d\x7d \x7b\x7bb\x7d\x7d"
        (fun k => if k = "a" then some "X" else none)
        = { result := "X \x7b\x7bb\x7d\x7d", unresolved := ["b"] }
    ∧ substituteVariables "\x7b\x7bx\x7d\x7d and \x7b\x7bx\x7d\x7d"
        (fun k => if k = "x" then some "yes" else none)
        = { result := "yes and yes", unresolved := [] }
    ∧ substituteVariables "\x7b\x7btoString\x7d\x7d and \x7b\x7bconstructor\x7d\x7d"
        (fun _ => none)
        = { result := "\x7b\x7btoString\x7d\x7d and \x7b\x7bconstructor\x7d\x7d",
            unresolved := ["toString", "constructor"] } := by
  refine ⟨?_, by decide, by decide, by decide, by decide⟩
  unfold substituteVariables
  rw [show (String.mk (renderTemplate toks)).data = renderTemplate toks from rfl,
    substScan_render vars toks hok _ (Nat.le_refl _)]

/-- Witness for claim C9, instantiating the general template theorem at a
one-placeholder template with an empty variable map. -/
theorem c9_variable_substitution_witness :
    substituteVariables (String.mk (renderTemplate [TemplateTok.ph "q"]))
        (fun _ => none)
      = { result := String.mk
            ([TemplateTok.ph "q"].flatMap (substTokOut (fun _ => none))),
          unresolved := dedupFirst
            (unresolvedOcc (fun _ => none) [TemplateTok.ph "q"]) } :=
  (c9_variable_substitution (fun _ => none) [TemplateTok.ph "q"]
    (fun t ht => by
      rcases List.mem_singleton.mp ht with rfl
      exact (by decide : isIdentStart 'q' = true ∧
        ∀ x ∈ ([] : List Char), isIdentChar x = true))).1


/-- The delivered work item of the allocation engine (`AllocationJob` in
`lib/allocation.ts`), with the payload fields the engine fills in.  The JS
`variableValues` record is kept as the partial map the engine built. -/
structure AllocationJob where
  modelTargetId : String
  questionId : String
  threadKey : String
  idempotencyKey : String
  questionTitle : String
  renderedPrompt : String
  questionMode : QuestionMode
  variableValues : String → Option String

/-- One assignment `map[key] = value` on a JS object modelled as a partial
map: the new binding shadows any previous one. -/
def setKey (m : String → Option String) (k v : String) :
    String → Option String :=
  fun x => if x = k then some v else m x

/-- Build the merged variable map of `allocateJobs`: survey defaults with a
non-null `defaultValue` first, then run-specific overrides, later
assignments winning. -/
def buildVariableMap (vrs : List VariableRec)
    (overrides : List (String × String)) : String → Option String :=
  let base := vrs.foldl
    (fun m v =>
      match v.defaultValue with
      | some d => setKey m v.key d
      | none => m)
    (fun _ => none)
  overrides.foldl (fun m kv => setKey m kv.1 kv.2) base

/-- The thread key generated for one (model, question) pair: for a
`THREADED` question the declared thread-group (falling back to the question
id when the column is null or empty, as the JS `q.threadKey || q.id` does),
for a `STATELESS` question always the question id — in both cases prefixed
by run and model. -/
def threadKeyFor (runId modelTargetId : String) (q : Question) : String :=
  if q.mode = QuestionMode.THREADED then
    runId ++ "-" ++ modelTargetId ++ "-"
      ++ (match q.threadKey with
          | some s => if s = "" then q.id else s
          | none => q.id)
  else
    runId ++ "-" ++ modelTargetId ++ "-" ++ q.id

/-- The idempotency key generated for one (model, question) pair. -/
def idempotencyKeyFor (runId modelTargetId questionId : String) : String :=
  runId ++ ":" ++ modelTargetId ++ ":" ++ questionId

/-- The job record pushed for one (model, question) pair in the inner loop
of `allocateJobs`. -/
def mkAllocationJob (runId modelTargetId : String)
    (varMap : String → Option String) (q : Question) : AllocationJob :=
  { modelTargetId := modelTargetId
    questionId := q.id
    threadKey := threadKeyFor runId modelTargetId q
    idempotencyKey := idempotencyKeyFor runId modelTargetId q.id
    questionTitle := q.title
    renderedPrompt := (substituteVariables q.promptTemplate varMap).result
    questionMode := q.mode
    variableValues := varMap }

/-- Insert a question into a list sorted by ascending `order`, keeping it
after earlier questions of equal `order` (stability). -/
def insertByOrder (q : Question) : List Question → List Question
  | [] => [q]
  | x :: xs =>
    if x.order ≤ q.order then x :: insertByOrder q xs else q :: x :: xs

/-- Stable sort by ascending `order`, modelling the `orderBy: order asc`
clause of the question query in `allocateJobs`. -/
def sortByOrder : List Question → List Question
  | [] => []
  | q :: qs => insertByOrder q (sortByOrder qs)

/-- Shallow embedding of `allocateJobs` from `lib/allocation.ts`: load the
survey's questions ordered by `order` ascending, merge the variable map,
then run the stable double loop — models outer, questions inner — pushing
one job per pair with its thread key, idempotency key, and rendered
prompt. -/
def allocateJobs (runId : String) (questions : List Question)
    (vrs : List VariableRec) (overrides : List (String × String))
    (modelTargetIds : List String) : List AllocationJob :=
  let sorted := sortByOrder questions
  let varMap := buildVariableMap vrs overrides
  modelTargetIds.foldl
    (fun acc m =>
      sorted.foldl (fun acc2 q => acc2 ++ [mkAllocationJob runId m varMap q]) acc)
    []


/-- Pushing one element at a time onto an accumulator is mapping. -/
theorem foldl_push_eq_map {α β : Type} (f : α → β) (l : List α)
    (acc : List β) :
    l.foldl (fun a x => a ++ [f x]) acc = acc ++ l.map f := by
  induction l generalizing acc with
  | nil => simp
  | cons x xs ih => simp [List.foldl_cons, ih, List.append_assoc]

/-- The nested accumulator loop of `allocateJobs` is a `flatMap` over the
model/question product. -/
theorem foldl_nested_eq_flatMap {α β γ : Type} (g : α → γ → β)
    (ms : List α) (s : List γ) (acc : List β) :
    ms.foldl (fun a m => s.foldl (fun a2 q => a2 ++ [g m q]) a) acc
      = acc ++ ms.flatMap (fun m => s.map (g m)) := by
  induction ms generalizing acc with
  | nil => simp
  | cons m rest ih =>
    simp only [List.foldl_cons, List.flatMap_cons]
    rw [foldl_push_eq_map, ih, List.append_assoc]

/-- `allocateJobs` in closed form: models as the outer loop, the sorted
questions as the inner loop. -/
theorem allocateJobs_eq_flatMap (runId : String) (questions : List Question)
    (vrs : List VariableRec) (overrides : List (String × String))
    (modelTargetIds : List String) :
    allocateJobs runId questions vrs overrides modelTargetIds
      = modelTargetIds.flatMap (fun m => (sortByOrder questions).map
          (mkAllocationJob runId m (buildVariableMap vrs overrides))) := by
  unfold allocateJobs
  rw [foldl_nested_eq_flatMap]
  simp

/-- Indexing into a uniform product `flatMap`: entry `i * |s| + j` is the
pair (i-th outer, j-th inner). -/
theorem flatMap_product_getElem {α β γ : Type} (g : α → γ → β)
    (ms : List α) (s : List γ) (i j : Nat) (hi : i < ms.length)
    (hj : j < s.length) :
    (ms.flatMap (fun m => s.map (g m)))[i * s.length + j]?
      = some (g (ms.get ⟨i, hi⟩) (s.get ⟨j, hj⟩)) := by
  induction ms generalizing i with
  | nil => exact absurd hi (by simp)
  | cons m rest ih =>
    cases i with
    | zero =>
      rw [List.flatMap_cons, List.getElem?_append]
      rw [if_pos (by simp only [List.length_map]; omega :
        0 * s.length + j < (s.map (g m)).length)]
      rw [List.getElem?_map]
      simp only [Nat.zero_mul, Nat.zero_add, List.get_eq_getElem]
      rw [List.getElem?_eq_getElem hj]
      simp
    | succ i' =>
      have hlen : (s.map (g m)).length = s.length := by simp
      have hge : ¬ (i' + 1) * s.length + j < (s.map (g m)).length := by
        rw [hlen, Nat.succ_mul]
        omega
      have hidx : (i' + 1) * s.length + j - (s.map (g m)).length
          = i' * s.length + j := by
        rw [hlen, Nat.succ_mul]
        omega
      rw [List.flatMap_cons, List.getElem?_append, if_neg hge, hidx]
      have hi' : i' < rest.length := by simpa using Nat.lt_of_succ_lt_succ hi
      rw [ih i' hi']
      simp

/-- Claim C2.  Allocation is deterministic: for a fixed input, two calls of
`allocateJobs` produce equal job lists (the embedding is a pure function of
its input, mirroring that the source computes jobs from run, models,
questions, and variables alone); and the ordering is exactly models as the
outer loop with the questions in stored display order as the inner loop:
the job at position `i * M + j` is built from the `i`-th model and the
`j`-th sorted question, carrying its idempotency key, thread key, and
rendered prompt. -/
theorem c2_allocation_deterministic (runId : String)
    (questions : List Question) (vrs : List VariableRec)
    (overrides : List (String × String)) (modelTargetIds : List String) :
    (allocateJobs runId questions vrs overrides modelTargetIds
        = allocateJobs runId questions vrs overrides modelTargetIds)
    ∧ (allocateJobs runId questions vrs overrides modelTargetIds
        = modelTargetIds.flatMap (fun m => (sortByOrder questions).map
            (mkAllocationJob runId m (buildVariableMap vrs overrides))))
    ∧ ∀ i j (hi : i < modelTargetIds.length)
        (hj : j < (sortByOrder questions).length),
        (allocateJobs runId questions vrs overrides
            modelTargetIds)[i * (sortByOrder questions).length + j]?
          = some (mkAllocationJob runId (modelTargetIds.get ⟨i, hi⟩)
              (buildVariableMap vrs overrides)
              ((sortByOrder questions).get ⟨j, hj⟩)) := by
  refine ⟨rfl, allocateJobs_eq_flatMap _ _ _ _ _, ?_⟩
  intro i j hi hj
  rw [allocateJobs_eq_flatMap]
  exact flatMap_product_getElem _ _ _ i j hi hj

/-- A sample question used to instantiate the allocation theorems. -/
def sampleQuestion : Question :=
  { id := "q-1", title := "T", promptTemplate := "Ask about X",
    order := 1, mode := QuestionMode.STATELESS, threadKey := none }

/-- Witness for claim C2: the single job of a one-model one-question
allocation sits at index `0 * 1 + 0` and is built from that model and
question. -/
theorem c2_allocation_deterministic_witness :
    (allocateJobs "r" [sampleQuestion] [] []
        ["m"])[0 * (sortByOrder [sampleQuestion]).length + 0]?
      = some (mkAllocationJob "r" ((["m"] : List String).get ⟨0, by decide⟩)
          (buildVariableMap [] [])
          ((sortByOrder [sampleQuestion]).get ⟨0, by decide⟩)) :=
  (c2_allocation_deterministic "r" [sampleQuestion] [] [] ["m"]).2.2 0 0
    (by decide) (by decide)


/-- Splitting at a separator character absent from both prefixes is
unambiguous. -/
theorem append_sep_inj {sep : Char} (a : List Char) (b : List Char)
    (c : List Char) (d : List Char) (ha : sep ∉ a) (hc : sep ∉ c)
    (h : a ++ sep :: b = c ++ sep :: d) : a = c ∧ b = d := by
  induction a generalizing c with
  | nil =>
    cases c with
    | nil => simpa using h
    | cons y ys =>
      simp only [List.nil_append, List.cons_append, List.cons.injEq] at h
      exact absurd (h.1 ▸ List.mem_cons_self y ys) (h.1 ▸ hc)
  | cons x xs ih =>
    cases c with
    | nil =>
      simp only [List.nil_append, List.cons_append, List.cons.injEq] at h
      exact absurd (h.1 ▸ List.mem_cons_self x xs) (by
        rw [h.1] at ha; exact ha)
    | cons y ys =>
      simp only [List.cons_append, List.cons.injEq] at h
      obtain ⟨rfl, h2⟩ := h
      have hr := ih ys (fun hmem => ha (List.mem_cons_of_mem _ hmem))
        (fun hmem => hc (List.mem_cons_of_mem _ hmem)) h2
      exact ⟨by rw [hr.1], hr.2⟩

/-- Equal string data means equal strings. -/
theorem string_data_inj {s t : String} (h : s.data = t.data) : s = t := by
  cases s; cases t; exact congrArg String.mk h

/-- Idempotency keys determine the (model, question-id) pair, as long as
model ids do not contain the `:` separator. -/
theorem idempotencyKeyFor_inj (runId m1 m2 q1 q2 : String)
    (hm1 : ':' ∉ m1.data) (hm2 : ':' ∉ m2.data)
    (h : idempotencyKeyFor runId m1 q1 = idempotencyKeyFor runId m2 q2) :
    m1 = m2 ∧ q1 = q2 := by
  unfold idempotencyKeyFor at h
  have hdata := congrArg String.data h
  simp only [String.data_append, List.append_assoc] at hdata
  have h2 := List.append_cancel_left hdata
  have h3 := List.append_cancel_left h2
  have h4 := append_sep_inj m1.data q1.data m2.data q2.data hm1 hm2 h3
  exact ⟨string_data_inj h4.1, string_data_inj h4.2⟩

/-- Distinct keys across the model/question-id product, given colon-free
distinct model ids and distinct question ids. -/
theorem nodup_product_keys (runId : String) (ms qids : List String)
    (hm : ∀ m ∈ ms, ':' ∉ m.data) (hmn : ms.Nodup) (hqn : qids.Nodup) :
    (ms.flatMap (fun m => qids.map
      (fun q => idempotencyKeyFor runId m q))).Nodup := by
  induction ms with
  | nil => simp
  | cons m rest ih =>
    rw [List.flatMap_cons, List.nodup_append]
    have hmm : ':' ∉ m.data := hm m (by simp)
    refine ⟨?_, ?_, ?_⟩
    · refine List.Nodup.map_on ?_ hqn
      intro x _ y _ hxy
      exact (idempotencyKeyFor_inj runId m m x y hmm hmm hxy).2
    · exact ih (fun x hx => hm x (List.mem_cons_of_mem m hx))
        (List.Nodup.of_cons hmn)
    · intro k hk1 hk2
      obtain ⟨q1, _, rfl⟩ := List.mem_map.mp hk1
      obtain ⟨m2, hm2mem, hk2'⟩ := List.mem_flatMap.mp hk2
      obtain ⟨q2, _, heq⟩ := List.mem_map.mp hk2'
      have hm2 : ':' ∉ m2.data := hm m2 (List.mem_cons_of_mem m hm2mem)
      have := (idempotencyKeyFor_inj runId m2 m q2 q1 hm2 hmm heq).1
      rw [this] at hm2mem
      exact (List.nodup_cons.mp hmn).1 hm2mem

/-- Inserting preserves the multiset of questions. -/
theorem insertByOrder_perm (q : Question) (l : List Question) :
    (insertByOrder q l).Perm (q :: l) := by
  induction l with
  | nil => exact List.Perm.refl _
  | cons x xs ih =>
    unfold insertByOrder
    by_cases hle : x.order ≤ q.order
    · rw [if_pos hle]
      exact (List.Perm.cons x ih).trans (List.Perm.swap q x xs)
    · rw [if_neg hle]

/-- The stable sort is a permutation of its input. -/
theorem sortByOrder_perm (l : List Question) :
    (sortByOrder l).Perm l := by
  induction l with
  | nil => exact List.Perm.refl _
  | cons q qs ih =>
    exact (insertByOrder_perm q (sortByOrder qs)).trans (List.Perm.cons q ih)


/-- Length of a uniform product `flatMap`. -/
theorem flatMap_product_length {α β γ : Type} (g : α → γ → β)
    (ms : List α) (s : List γ) :
    (ms.flatMap (fun m => s.map (g m))).length = ms.length * s.length := by
  induction ms with
  | nil => simp
  | cons m rest ih =>
    rw [List.flatMap_cons, List.length_append, List.length_map, ih,
      List.length_cons, Nat.succ_mul]
    omega

/-- A question whose id contains the `:` separator, used to exhibit the
idempotency-key collision. -/
def colonQuestionA : Question :=
  { id := "b:c", title := "TA", promptTemplate := "PA", order := 0,
    mode := QuestionMode.STATELESS, threadKey := none }

/-- A second question with a colliding id fragment. -/
def colonQuestionB : Question :=
  { id := "c", title := "TB", promptTemplate := "PB", order := 1,
    mode := QuestionMode.STATELESS, threadKey := none }

/-- Counterexample for claim C3 as stated.  With the two distinct model ids
`"a"` and `"a:b"` and the two distinct question ids `"b:c"` and `"c"`, the
allocation produces the four jobs of the product, but the keys
`r:a:b:c` (from model `a`, question `b:c`) and `r:a:b:c` (from model
`a:b`, question `c`) collide: the keys are not pairwise distinct even
though models and question ids are. -/
theorem c3_idempotency_counterexample :
    (["a", "a:b"] : List String).Nodup
    ∧ ([colonQuestionA, colonQuestionB].map Question.id).Nodup
    ∧ (allocateJobs "r" [colonQuestionA, colonQuestionB] [] []
        ["a", "a:b"]).length = 2 * 2
    ∧ ¬ ((allocateJobs "r" [colonQuestionA, colonQuestionB] [] []
        ["a", "a:b"]).map AllocationJob.idempotencyKey).Nodup := by
  refine ⟨by decide, by decide, ?_, ?_⟩
  · rw [allocateJobs_eq_flatMap, flatMap_product_length]
    decide
  · intro hnodup
    rw [allocateJobs_eq_flatMap] at hnodup
    have : (((["a", "a:b"] : List String).flatMap
        (fun m => (sortByOrder [colonQuestionA, colonQuestionB]).map
          (mkAllocationJob "r" m (buildVariableMap [] [])))).map
            AllocationJob.idempotencyKey)
        = ["r:a:b:c", "r:a:c", "r:a:b:b:c", "r:a:b:c"] := by decide
    rw [this] at hnodup
    exact absurd hnodup (by decide)

/-- Claim C3 (amended).  Provided no selected model id contains the `:`
separator character (UUIDs, as the run schema requires, never do), an
allocation over N distinct model ids and M questions with distinct ids
produces exactly N × M jobs whose idempotency keys are pairwise distinct,
and re-running the allocation with the same run, models, and questions
produces exactly the same keys. -/
theorem c3_idempotency_keys (runId : String) (questions : List Question)
    (vrs : List VariableRec) (overrides : List (String × String))
    (models : List String)
    (hm : ∀ m ∈ models, ':' ∉ m.data)
    (hmn : models.Nodup)
    (hqn : (questions.map Question.id).Nodup) :
    ((allocateJobs runId questions vrs overrides models).map
        AllocationJob.idempotencyKey).Nodup
    ∧ (allocateJobs runId questions vrs overrides models).length
        = models.length * questions.length
    ∧ (allocateJobs runId questions vrs overrides models).map
        AllocationJob.idempotencyKey
      = (allocateJobs runId questions vrs overrides models).map
        AllocationJob.idempotencyKey := by
  have hperm := sortByOrder_perm questions
  refine ⟨?_, ?_, rfl⟩
  · rw [allocateJobs_eq_flatMap, List.map_flatMap]
    have hinner : ∀ m : String,
        ((sortByOrder questions).map
            (mkAllocationJob runId m (buildVariableMap vrs overrides))).map
          AllocationJob.idempotencyKey
        = ((sortByOrder questions).map Question.id).map
            (fun qid => idempotencyKeyFor runId m qid) := by
      intro m
      rw [List.map_map, List.map_map]
      rfl
    simp only [hinner]
    refine nodup_product_keys runId models
      ((sortByOrder questions).map Question.id) hm hmn ?_
    exact ((hperm.map Question.id).nodup_iff).mpr hqn
  · rw [allocateJobs_eq_flatMap, flatMap_product_length, hperm.length_eq]

/-- Witness for claim C3, instantiating the amended theorem at a colon-free
model id and a single question. -/
theorem c3_idempotency_keys_witness :
    ((allocateJobs "r" [sampleQuestion] [] [] ["m"]).map
        AllocationJob.idempotencyKey).Nodup
    ∧ (allocateJobs "r" [sampleQuestion] [] [] ["m"]).length
        = (["m"] : List String).length * ([sampleQuestion]).length
    ∧ (allocateJobs "r" [sampleQuestion] [] [] ["m"]).map
        AllocationJob.idempotencyKey
      = (allocateJobs "r" [sampleQuestion] [] [] ["m"]).map
        AllocationJob.idempotencyKey :=
  c3_idempotency_keys "r" [sampleQuestion] [] [] ["m"]
    (by decide) (by decide) (by decide)


/-- Cancelling a shared string prefix. -/
theorem string_append_left_cancel {a b c : String} (h : a ++ b = a ++ c) :
    b = c := by
  have hdata := congrArg String.data h
  simp only [String.data_append] at hdata
  exact string_data_inj (List.append_cancel_left hdata)

/-- Claim C4.  Thread-key partitioning in allocation: two stateless
questions with distinct ids under the same model receive different thread
keys; two threaded questions declaring the same (non-empty) thread-group
under the same model receive the same thread key; the same thread-group
under two different models receives two different thread keys.  The last
conjunct ties the key formula to the jobs the allocation engine emits.
Declaring a thread-group means a non-empty `threadKey` column: the source's
`q.threadKey || q.id` treats the empty string like the absent value. -/
theorem c4_thread_key_partitioning (runId m m1 m2 : String)
    (q q1 q2 : Question) (g : String) :
    (q1.mode = QuestionMode.STATELESS → q2.mode = QuestionMode.STATELESS →
      q1.id ≠ q2.id →
      threadKeyFor runId m q1 ≠ threadKeyFor runId m q2)
    ∧ (q1.mode = QuestionMode.THREADED → q2.mode = QuestionMode.THREADED →
      q1.threadKey = some g → q2.threadKey = some g → g ≠ "" →
      threadKeyFor runId m q1 = threadKeyFor runId m q2)
    ∧ (q.mode = QuestionMode.THREADED → q.threadKey = some g → g ≠ "" →
      m1 ≠ m2 →
      threadKeyFor runId m1 q ≠ threadKeyFor runId m2 q)
    ∧ (∀ varMap : String → Option String,
        (mkAllocationJob runId m varMap q).threadKey
          = threadKeyFor runId m q) := by
  refine ⟨?_, ?_, ?_, fun _ => rfl⟩
  · intro h1 h2 hne heq
    rw [threadKeyFor, threadKeyFor, h1, h2] at heq
    simp only [reduceCtorEq, if_false] at heq
    exact hne (string_append_left_cancel heq)
  · intro h1 h2 hk1 hk2 hg
    rw [threadKeyFor, threadKeyFor, h1, h2, hk1, hk2]
    simp [hg]
  · intro hmode hkey hg hne heq
    have hL : threadKeyFor runId m1 q = runId ++ "-" ++ m1 ++ "-" ++ g := by
      simp [threadKeyFor, hmode, hkey, hg]
    have hR : threadKeyFor runId m2 q = runId ++ "-" ++ m2 ++ "-" ++ g := by
      simp [threadKeyFor, hmode, hkey, hg]
    rw [hL, hR] at heq
    have hdata := congrArg String.data heq
    simp only [String.data_append, List.append_assoc,
      List.singleton_append] at hdata
    have h2 := List.append_cancel_left hdata
    simp only [List.cons.injEq, true_and] at h2
    have h3 : m1.data ++ '-' :: g.data = m2.data ++ '-' :: g.data := by
      simpa using h2
    exact hne (string_data_inj (List.append_cancel_right h3))

/-- A threaded question declaring thread-group `tg-1`. -/
def threadedQuestionA : Question :=
  { id := "q-a", title := "TA", promptTemplate := "PA", order := 0,
    mode := QuestionMode.THREADED, threadKey := some "tg-1" }

/-- A second threaded question declaring the same thread-group `tg-1`. -/
def threadedQuestionB : Question :=
  { id := "q-b", title := "TB", promptTemplate := "PB", order := 1,
    mode := QuestionMode.THREADED, threadKey := some "tg-1" }

/-- Witness for claim C4: the two threaded questions sharing thread-group
`tg-1` receive the same thread key under model `m`. -/
theorem c4_thread_key_partitioning_witness :
    threadKeyFor "r" "m" threadedQuestionA
      = threadKeyFor "r" "m" threadedQuestionB :=
  (c4_thread_key_partitioning "r" "m" "m" "m2" threadedQuestionA
      threadedQuestionA threadedQuestionB "tg-1").2.1
    rfl rfl rfl rfl (by decide)


/-- The row image of the conditional claim: status `RUNNING`, start time
stamped, attempt incremented (the `data` clause of the `updateMany` in
`claimJob`, `worker/index.ts`). -/
def claimUpdateJob (now : Nat) (j : JobRec) : JobRec :=
  { j with
      status := JobStatus.RUNNING
      startedAt := some now
      attempt := j.attempt + 1 }

/-- The row filter of the conditional claim: this exact row, and only if it
is still `PENDING`. -/
def claimMatches (jobId : String) (r : JobRec) : Bool :=
  r.id = jobId && r.status = JobStatus.PENDING

/-- Applying the guarded `updateMany` to the job table: every row matching
the claim filter is rewritten, every other row kept. -/
def applyClaim (db : List JobRec) (jobId : String) (now : Nat) : List JobRec :=
  db.map (fun r => if claimMatches jobId r then claimUpdateJob now r else r)

/-- The affected-row count of the guarded `updateMany`. -/
def claimCount (db : List JobRec) (jobId : String) : Nat :=
  (db.filter (claimMatches jobId)).length

/-- The `findUnique` re-fetch after a successful claim. -/
def findUniqueJob (db : List JobRec) (jobId : String) : Option JobRec :=
  db.find? (fun r => r.id = jobId)

/-- The `findFirst` selection of `claimJob`: the oldest `PENDING` job of the
requested type not already held in the worker's in-memory active set (the
job table is listed in `createdAt` order). -/
def findPendingJob (ty : JobType) (active : List String)
    (db : List JobRec) : Option JobRec :=
  db.find? (fun j => j.type = ty && j.status = JobStatus.PENDING
    && !(active.contains j.id))

/-- One claim attempt against the selected job: issue the conditional
update; zero affected rows means another worker won the race and no job is
claimed; otherwise re-fetch the updated row.  Returns the claim outcome and
the job table after the attempt. -/
def attemptClaim (db : List JobRec) (jobId : String) (now : Nat) :
    Option JobRec × List JobRec :=
  let cnt := claimCount db jobId
  if cnt = 0 then (none, db)
  else (findUniqueJob (applyClaim db jobId now) jobId, applyClaim db jobId now)

/-- Shallow embedding of `claimJob` from `worker/index.ts`: enforce the
per-type concurrency cap, select the oldest eligible `PENDING` job, then
attempt the optimistic conditional claim. -/
def claimJob (ty : JobType) (maxActive : Nat)
    (active : List (JobType × String)) (db : List JobRec) (now : Nat) :
    Option JobRec × List JobRec :=
  let activeOfType := (active.filter (fun p => p.1 = ty)).length
  if activeOfType ≥ maxActive then (none, db)
  else
    match findPendingJob ty (active.map Prod.snd) db with
    | none => (none, db)
    | some pendingJob => attemptClaim db pendingJob.id now

/-- With unique row ids, the claim filter selects exactly the pending target
row. -/
theorem claimCount_of_mem_pending (db : List JobRec) (j : JobRec)
    (hn : (db.map JobRec.id).Nodup) (hj : j ∈ db)
    (hp : j.status = JobStatus.PENDING) : claimCount db j.id = 1 := by
  induction db with
  | nil => exact absurd hj (List.not_mem_nil j)
  | cons r rest ih =>
    have hn' : (rest.map JobRec.id).Nodup := (List.nodup_cons.mp hn).2
    have hnid : r.id ∉ rest.map JobRec.id := (List.nodup_cons.mp hn).1
    unfold claimCount
    rcases List.mem_cons.mp hj with rfl | hmem
    · rw [List.filter_cons, if_pos (by simp [claimMatches, hp])]
      have hrest : rest.filter (claimMatches j.id) = [] := by
        rw [List.filter_eq_nil_iff]
        intro x hx hmx
        simp only [claimMatches, Bool.and_eq_true, decide_eq_true_eq] at hmx
        exact hnid (hmx.1 ▸ List.mem_map_of_mem JobRec.id hx)
      rw [hrest]
      rfl
    · have hrne : ¬ claimMatches j.id r = true := by
        intro hc
        simp only [claimMatches, Bool.and_eq_true, decide_eq_true_eq] at hc
        exact hnid (hc.1 ▸ List.mem_map_of_mem JobRec.id hmem)
      rw [List.filter_cons, if_neg hrne]
      exact ih hn' hmem

/-- With unique row ids, a non-pending target row is never matched. -/
theorem claimCount_of_mem_not_pending (db : List JobRec) (j : JobRec)
    (hn : (db.map JobRec.id).Nodup) (hj : j ∈ db)
    (hp : j.status ≠ JobStatus.PENDING) : claimCount db j.id = 0 := by
  unfold claimCount
  rw [List.length_eq_zero, List.filter_eq_nil_iff]
  intro x hx hmx
  simp only [claimMatches, Bool.and_eq_true, decide_eq_true_eq] at hmx
  obtain ⟨hxid, hxp⟩ := hmx
  have hxj : x = j := List.inj_on_of_nodup_map hn hx hj hxid
  exact hp (hxj ▸ hxp)


/-- After the conditional update, the re-fetch returns the updated row. -/
theorem findUniqueJob_applyClaim (db : List JobRec) (j : JobRec) (now : Nat)
    (hn : (db.map JobRec.id).Nodup) (hj : j ∈ db)
    (hp : j.status = JobStatus.PENDING) :
    findUniqueJob (applyClaim db j.id now) j.id
      = some (claimUpdateJob now j) := by
  induction db with
  | nil => exact absurd hj (List.not_mem_nil j)
  | cons r rest ih =>
    have hn' : (rest.map JobRec.id).Nodup := (List.nodup_cons.mp hn).2
    have hnid : r.id ∉ rest.map JobRec.id := (List.nodup_cons.mp hn).1
    by_cases hid : r.id = j.id
    · have hrj : r = j := List.inj_on_of_nodup_map hn (by simp) hj hid
      subst hrj
      unfold applyClaim findUniqueJob
      rw [List.map_cons, if_pos (by simp [claimMatches, hp]),
        List.find?_cons_of_pos _ (by simp [claimUpdateJob])]
    · have hmem : j ∈ rest := by
        rcases List.mem_cons.mp hj with rfl | h
        · exact absurd rfl hid
        · exact h
      unfold applyClaim findUniqueJob
      rw [List.map_cons, if_neg (by simp [claimMatches, hid]),
        List.find?_cons_of_neg _ (by simp [hid])]
      exact ih hn' hmem

/-- The conditional update leaves no row that still matches the claim
filter: a second identical claim attempt affects zero rows. -/
theorem claimCount_applyClaim (db : List JobRec) (jobId : String)
    (now : Nat) : claimCount (applyClaim db jobId now) jobId = 0 := by
  unfold claimCount
  rw [List.length_eq_zero, List.filter_eq_nil_iff]
  intro x hx hmx
  obtain ⟨r, _, hxr⟩ := List.mem_map.mp hx
  by_cases hm : claimMatches jobId r = true
  · rw [if_pos hm] at hxr
    simp only [claimMatches, Bool.and_eq_true, decide_eq_true_eq] at hmx
    rw [← hxr] at hmx
    simp [claimUpdateJob] at hmx
  · rw [if_neg hm] at hxr
    rw [← hxr] at hmx
    exact hm hmx

/-- Claim C5.  Claim race safety: for a `PENDING` job, of two claim attempts
targeting that job (interleaved as two atomic conditional updates), exactly
the first succeeds and transitions the job to `RUNNING` with the attempt
counter incremented and the start time stamped, while the second observes
zero affected rows, returns no claimed job, and leaves the table unchanged;
and a claim attempt against a job whose status is not `PENDING` never
changes the table and yields no job. -/
theorem c5_claim_race_safety (db : List JobRec) (j : JobRec) (t1 t2 : Nat)
    (hn : (db.map JobRec.id).Nodup) (hj : j ∈ db) :
    (j.status = JobStatus.PENDING →
      (attemptClaim db j.id t1).1 = some (claimUpdateJob t1 j)
      ∧ (claimUpdateJob t1 j).status = JobStatus.RUNNING
      ∧ (claimUpdateJob t1 j).attempt = j.attempt + 1
      ∧ (claimUpdateJob t1 j).startedAt = some t1
      ∧ (attemptClaim (attemptClaim db j.id t1).2 j.id t2).1 = none
      ∧ (attemptClaim (attemptClaim db j.id t1).2 j.id t2).2
          = (attemptClaim db j.id t1).2)
    ∧ (j.status ≠ JobStatus.PENDING → attemptClaim db j.id t1 = (none, db)) := by
  constructor
  · intro hp
    have hcnt : claimCount db j.id = 1 := claimCount_of_mem_pending db j hn hj hp
    have hfirst : attemptClaim db j.id t1
        = (some (claimUpdateJob t1 j), applyClaim db j.id t1) := by
      unfold attemptClaim
      rw [hcnt]
      simp only [if_neg (by omega : ¬ (1 : Nat) = 0)]
      rw [findUniqueJob_applyClaim db j t1 hn hj hp]
    have hsecond : attemptClaim (applyClaim db j.id t1) j.id t2
        = (none, applyClaim db j.id t1) := by
      unfold attemptClaim
      rw [claimCount_applyClaim]
      simp
    rw [hfirst]
    exact ⟨rfl, rfl, rfl, rfl, by rw [hsecond], by rw [hsecond]⟩
  · intro hp
    have hcnt : claimCount db j.id = 0 :=
      claimCount_of_mem_not_pending db j hn hj hp
    unfold attemptClaim
    rw [hcnt]
    simp

/-- Witness for claim C5: a one-row table with the sample pending job; the
first attempt claims it, the second returns nothing. -/
theorem c5_claim_race_safety_witness :
    (attemptClaim [samplePendingJob] samplePendingJob.id 4).1
        = some (claimUpdateJob 4 samplePendingJob)
      ∧ (claimUpdateJob 4 samplePendingJob).status = JobStatus.RUNNING
      ∧ (claimUpdateJob 4 samplePendingJob).attempt
          = samplePendingJob.attempt + 1
      ∧ (claimUpdateJob 4 samplePendingJob).startedAt = some 4
      ∧ (attemptClaim
            (attemptClaim [samplePendingJob] samplePendingJob.id 4).2
            samplePendingJob.id 9).1 = none
      ∧ (attemptClaim
            (attemptClaim [samplePendingJob] samplePendingJob.id 4).2
            samplePendingJob.id 9).2
          = (attemptClaim [samplePendingJob] samplePendingJob.id 4).2 :=
  (c5_claim_race_safety [samplePendingJob] samplePendingJob 4 9
    (by decide) (by decide)).1 rfl


/-- A JSON value, as produced by the platform's `JSON.parse`.  Numbers keep
their lexeme: the response schema has no numeric field, so no claim ever
compares two numeric values. -/
inductive Json where
  | obj (members : List (String × Json))
  | arr (elements : List Json)
  | str (s : String)
  | num (lexeme : String)
  | boolean (b : Bool)
  | null
deriving Repr

/-- The whitespace the JSON grammar skips between tokens. -/
def isJsonWs (c : Char) : Bool :=
  c = ' ' || c = '\t' || c = '\n' || c = '\r'

/-- An ASCII decimal digit. -/
def isDigitChar (c : Char) : Bool :=
  '0' ≤ c && c ≤ '9'

/-- The numeric value of a hexadecimal digit. -/
def hexDigitVal (c : Char) : Option Nat :=
  let n := c.toNat
  if 48 ≤ n && n ≤ 57 then some (n - 48)
  else if 97 ≤ n && n ≤ 102 then some (n - 87)
  else if 65 ≤ n && n ≤ 70 then some (n - 55)
  else none

/-- Body of a JSON string after the opening quote: plain characters up to
the closing quote, with the JSON escape sequences.  A `\u` escape denoting a
surrogate half is rejected (a deviation from JS, whose strings admit lone
surrogates; no claim input contains one).  Returns the decoded characters
and the input after the closing quote. -/
def parseStringBody : List Char → Option (List Char × List Char)
  | [] => none
  | c :: rest =>
    if c = '"' then some ([], rest)
    else if c = '\\' then
      match rest with
      | [] => none
      | e :: rest1 =>
        match e with
        | '"' => (parseStringBody rest1).map (fun p => ('"' :: p.1, p.2))
        | '\\' => (parseStringBody rest1).map (fun p => ('\\' :: p.1, p.2))
        | '/' => (parseStringBody rest1).map (fun p => ('/' :: p.1, p.2))
        | 'b' => (parseStringBody rest1).map (fun p => ('\x08' :: p.1, p.2))
        | 'f' => (parseStringBody rest1).map (fun p => ('\x0c' :: p.1, p.2))
        | 'n' => (parseStringBody rest1).map (fun p => ('\n' :: p.1, p.2))
        | 'r' => (parseStringBody rest1).map (fun p => ('\r' :: p.1, p.2))
        | 't' => (parseStringBody rest1).map (fun p => ('\t' :: p.1, p.2))
        | 'u' =>
          match rest1 with
          | h1 :: h2 :: h3 :: h4 :: rest2 =>
            match hexDigitVal h1, hexDigitVal h2, hexDigitVal h3, hexDigitVal h4 with
            | some v1, some v2, some v3, some v4 =>
              let code := ((v1 * 16 + v2) * 16 + v3) * 16 + v4
              if 0xd800 ≤ code && code ≤ 0xdfff then none
              else (parseStringBody rest2).map
                (fun p => (Char.ofNat code :: p.1, p.2))
            | _, _, _, _ => none
          | _ => none
        | _ => none
    else if c.toNat < 32 then none
    else (parseStringBody rest).map (fun p => (c :: p.1, p.2))

/-- The integer part of a JSON number: `0`, or a nonzero digit followed by
digits (leading zeros refused, as the grammar demands). -/
def parseIntPart : List Char → Option (List Char × List Char)
  | [] => none
  | '0' :: rest => some (['0'], rest)
  | c :: rest =>
    if '1' ≤ c && c ≤ '9' then
      some (c :: rest.takeWhile isDigitChar, rest.dropWhile isDigitChar)
    else none

/-- The lexeme of a JSON number starting at the input head: optional minus,
integer part, optional fraction, optional exponent. -/
def parseNumberLexeme (l : List Char) : Option (List Char × List Char) :=
  let (neg, l1) :=
    match l with
    | '-' :: rest => (['-'], rest)
    | _ => (([] : List Char), l)
  match parseIntPart l1 with
  | none => none
  | some (ip, l2) =>
    let (fp, l3) :=
      match l2 with
      | '.' :: r =>
        match r.takeWhile isDigitChar with
        | [] => ([], l2)
        | ds => ('.' :: ds, r.dropWhile isDigitChar)
      | _ => (([] : List Char), l2)
    let (ep, l4) :=
      match l3 with
      | 'e' :: r => expPart 'e' r l3
      | 'E' :: r => expPart 'E' r l3
      | _ => (([] : List Char), l3)
    some (neg ++ ip ++ fp ++ ep, l4)
where
  /-- Exponent part: sign then at least one digit, or nothing. -/
  expPart (e : Char) (r : List Char) (orig : List Char) :
      List Char × List Char :=
    let (sgn, r2) :=
      match r with
      | '+' :: rr => (['+'], rr)
      | '-' :: rr => (['-'], rr)
      | _ => (([] : List Char), r)
    match r2.takeWhile isDigitChar with
    | [] => ([], orig)
    | ds => (e :: sgn ++ ds, r2.dropWhile isDigitChar)

mutual

/-- Parse one JSON value from the head of the input (after optional
whitespace), returning the value and the remaining input.  Fuel-indexed:
any fuel at least the input length is enough, since every recursive call
consumes at least one character first. -/
def parseValue : Nat → List Char → Option (Json × List Char)
  | 0, _ => none
  | fuel + 1, l =>
    match l.dropWhile isJsonWs with
    | '{' :: r =>
      match parseMembers fuel r with
      | some (ms, r2) => some (Json.obj ms, r2)
      | none => none
    | '[' :: r =>
      match parseElems fuel r with
      | some (es, r2) => some (Json.arr es, r2)
      | none => none
    | '"' :: r =>
      match parseStringBody r with
      | some (s, r2) => some (Json.str (String.mk s), r2)
      | none => none
    | 't' :: r =>
      if ['r', 'u', 'e'].isPrefixOf r then some (Json.boolean true, r.drop 3)
      else none
    | 'f' :: r =>
      if ['a', 'l', 's', 'e'].isPrefixOf r then some (Json.boolean false, r.drop 4)
      else none
    | 'n' :: r =>
      if ['u', 'l', 'l'].isPrefixOf r then some (Json.null, r.drop 3)
      else none
    | c :: r =>
      if c = '-' || isDigitChar c then
        match parseNumberLexeme (c :: r) with
        | some (lex, r2) => some (Json.num (String.mk lex), r2)
        | none => none
      else none
    | [] => none

/-- Parse the members of an object after its opening brace: either an
immediate closing brace, or a first `"key": value` member followed by the
member tail. -/
def parseMembers : Nat → List Char → Option (List (String × Json) × List Char)
  | 0, _ => none
  | fuel + 1, l =>
    match l.dropWhile isJsonWs with
    | '}' :: r => some ([], r)
    | '"' :: r =>
      match parseStringBody r with
      | some (k, r1) =>
        match r1.dropWhile isJsonWs with
        | ':' :: r2 =>
          match parseValue fuel r2 with
          | some (v, r3) =>
            match r3.dropWhile isJsonWs with
            | ',' :: r4 =>
              match parseMemberList fuel r4 with
              | some (ms, r5) => some ((String.mk k, v) :: ms, r5)
              | none => none
            | '}' :: r4 => some ([(String.mk k, v)], r4)
            | _ => none
          | none => none
        | _ => none
      | none => none
    | _ => none

/-- Parse the members after a comma: a `"key": value` member is required
(JSON refuses a trailing comma — the whole reason the repair pipeline
exists). -/
def parseMemberList : Nat → List Char → Option (List (String × Json) × List Char)
  | 0, _ => none
  | fuel + 1, l =>
    match l.dropWhile isJsonWs with
    | '"' :: r =>
      match parseStringBody r with
      | some (k, r1) =>
        match r1.dropWhile isJsonWs with
        | ':' :: r2 =>
          match parseValue fuel r2 with
          | some (v, r3) =>
            match r3.dropWhile isJsonWs with
            | ',' :: r4 =>
              match parseMemberList fuel r4 with
              | some (ms, r5) => some ((String.mk k, v) :: ms, r5)
              | none => none
            | '}' :: r4 => some ([(String.mk k, v)], r4)
            | _ => none
          | none => none
        | _ => none
      | none => none
    | _ => none

/-- Parse the elements of an array after its opening bracket. -/
def parseElems : Nat → List Char → Option (List Json × List Char)
  | 0, _ => none
  | fuel + 1, l =>
    match l.dropWhile isJsonWs with
    | ']' :: r => some ([], r)
    | _ =>
      match parseValue fuel l with
      | some (v, r1) =>
        match r1.dropWhile isJsonWs with
        | ',' :: r2 =>
          match parseElemList fuel r2 with
          | some (es, r3) => some (v :: es, r3)
          | none => none
        | ']' :: r2 => some ([v], r2)
        | _ => none
      | none => none

/-- Parse the elements after a comma: a value is required. -/
def parseElemList : Nat → List Char → Option (List Json × List Char)
  | 0, _ => none
  | fuel + 1, l =>
    match parseValue fuel l with
    | some (v, r1) =>
      match r1.dropWhile isJsonWs with
      | ',' :: r2 =>
        match parseElemList fuel r2 with
        | some (es, r3) => some (v :: es, r3)
        | none => none
      | ']' :: r2 => some ([v], r2)
      | _ => none
    | none => none

end

/-- Model of the platform's `JSON.parse`: parse one value and require only
whitespace after it. -/
def jsonParse (s : String) : Option Json :=
  match parseValue (s.data.length + 1) s.data with
  | some (v, rest) => if rest.dropWhile isJsonWs = [] then some v else none
  | none => none


/-- A citation of the response schema (`citationSchema` in `lib/schemas.ts`):
`url` required, `title` and `snippet` optional strings. -/
structure Citation where
  url : String
  title : Option String
  snippet : Option String
deriving DecidableEq, Repr

/-- The validated LLM response payload (`llmResponseSchema`):
`answerText` required string, `citations` required citation array, `notes`
optional string. -/
structure LlmResponsePayload where
  answerText : String
  citations : List Citation
  notes : Option String
deriving DecidableEq, Repr

/-- Result of `repairAndParseJson` (`RepairResult` in `lib/json-repair.ts`). -/
structure RepairResult where
  parsed : Option LlmResponsePayload
  error : Option String
deriving DecidableEq, Repr

/-- Property lookup on a parsed JSON object: the last binding wins, as a
later duplicate key overwrites the earlier one in a JS object. -/
def objLookupLast (ms : List (String × Json)) (k : String) : Option Json :=
  match ms.reverse.find? (fun p => p.1 = k) with
  | some p => some p.2
  | none => none

/-- Validate an optional string field: absent is fine, present must be a
string (the zod `z.string().optional()`). -/
def optStringField (ms : List (String × Json)) (k : String) :
    Option (Option String) :=
  match objLookupLast ms k with
  | none => some none
  | some (Json.str s) => some (some s)
  | some _ => none

/-- Validate one element of the citations array against `citationSchema`. -/
def validateCitation (j : Json) : Option Citation :=
  match j with
  | Json.obj ms =>
    match objLookupLast ms "url" with
    | some (Json.str u) =>
      match optStringField ms "title", optStringField ms "snippet" with
      | some t, some sp => some { url := u, title := t, snippet := sp }
      | _, _ => none
    | _ => none
  | _ => none

/-- Validate every element of the citations array. -/
def validateCitations : List Json → Option (List Citation)
  | [] => some []
  | j :: rest =>
    match validateCitation j, validateCitations rest with
    | some c, some cs => some (c :: cs)
    | _, _ => none

/-- Validate a parsed JSON value against `llmResponseSchema` (zod object
semantics: required fields present and typed, unknown keys stripped). -/
def llmResponseValidate (j : Json) : Option LlmResponsePayload :=
  match j with
  | Json.obj ms =>
    match objLookupLast ms "answerText" with
    | some (Json.str a) =>
      match objLookupLast ms "citations" with
      | some (Json.arr es) =>
        match validateCitations es, optStringField ms "notes" with
        | some cs, some n => some { answerText := a, citations := cs, notes := n }
        | _, _ => none
      | _ => none
    | _ => none
  | _ => none

/-- The `tryParseAndValidate` step of `lib/json-repair.ts`: `JSON.parse`
then schema validation.  The engine- and zod-specific detail of the error
messages is abstracted to the fixed prefixes the source interpolates. -/
def tryParseAndValidate (s : String) : RepairResult :=
  match jsonParse s with
  | none => { parsed := none, error := some "JSON parse error" }
  | some j =>
    match llmResponseValidate j with
    | some p => { parsed := some p, error := none }
    | none => { parsed := none, error := some "Validation error" }

/-- The whitespace class of the JS regexes (`\s`) and `String.trim`:
the ASCII whitespace characters plus no-break space (the further exotic
Unicode space characters are omitted; none can occur in the claims'
inputs). -/
def jsWs (c : Char) : Bool :=
  c = ' ' || c = '\t' || c = '\n' || c = '\r' || c = '\x0b' || c = '\x0c'
    || c.toNat = 0xa0

/-- JS `String.trim`. -/
def trimChars (l : List Char) : List Char :=
  ((l.dropWhile jsWs).reverse.dropWhile jsWs).reverse

/-- First index at which a pattern occurs as a prefix of the suffix. -/
def findSubIdx (pat : List Char) : List Char → Option Nat
  | [] => if pat.isPrefixOf ([] : List Char) then some 0 else none
  | c :: rest =>
    if pat.isPrefixOf (c :: rest) then some 0
    else (findSubIdx pat rest).map (· + 1)

/-- Earliest offset from which the closing fence matches: a run of
whitespace followed by three backticks (the lazy capture of the fence regex
ends at the first such offset). -/
def fenceCloseIdx : List Char → Option Nat
  | [] => none
  | c :: rest =>
    if ['`', '`', '`'].isPrefixOf ((c :: rest).dropWhile jsWs) then some 0
    else (fenceCloseIdx rest).map (· + 1)

/-- The `stripMarkdownFences` step: model of the JS regex
 `/(three backticks)(json)?\s*\n?([\s\S]*?)\n?\s*(three backticks)/` applied
with `exec` and returning `match[1].trim()` on success and the input
otherwise.  The leftmost opening fence is located, `json` and leading
whitespace are consumed greedily, and the lazy capture ends at the earliest
offset from which whitespace followed by a closing fence matches. -/
def stripMarkdownFences (l : List Char) : List Char :=
  match findSubIdx ['`', '`', '`'] l with
  | none => l
  | some i =>
    let after := l.drop (i + 3)
    let after2 :=
      if ['j', 's', 'o', 'n'].isPrefixOf after then after.drop 4 else after
    let p := after2.dropWhile jsWs
    match fenceCloseIdx p with
    | some e => trimChars (p.take e)
    | none => l

/-- First index of a character. -/
def firstIdxOf (c : Char) : List Char → Option Nat
  | [] => none
  | x :: rest => if x = c then some 0 else (firstIdxOf c rest).map (· + 1)

/-- Last index of a character (`String.lastIndexOf`). -/
def lastIdxOf (c : Char) (l : List Char) : Option Nat :=
  match firstIdxOf c l.reverse with
  | some k => some (l.length - 1 - k)
  | none => none

/-- The `extractJsonObject` step of `lib/json-repair.ts`: slice from the
first `\x7b` to the last `\x7d`; empty when either is missing or they are
in the wrong order. -/
def extractJsonObject (l : List Char) : List Char :=
  match firstIdxOf '{' l, lastIdxOf '}' l with
  | some f, some lb => if lb ≤ f then [] else (l.take (lb + 1)).drop f
  | _, _ => []

/-- The `normalizeSmartQuotes` step: the four global single-character
replacements of typographic quotes, as one character map. -/
def normalizeSmartQuotes (l : List Char) : List Char :=
  l.map (fun c =>
    if c = '“' || c = '”' then '"'
    else if c = '‘' || c = '’' then '\x27'
    else c)

/-- The scan of the global replace `/,\s*([\x7d\x5d])/g`: a comma followed
by whitespace and a closing brace or bracket loses the comma and the
whitespace; scanning resumes after the replacement. -/
def rtcScan : Nat → List Char → List Char
  | 0, l => l
  | _ + 1, [] => []
  | fuel + 1, ',' :: rest =>
    match rest.dropWhile jsWs with
    | b :: r2 =>
      if b = '}' || b = ']' then b :: rtcScan fuel r2
      else ',' :: rtcScan fuel rest
    | [] => ',' :: rtcScan fuel rest
  | fuel + 1, c :: rest => c :: rtcScan fuel rest

/-- The `removeTrailingCommas` step of `lib/json-repair.ts`. -/
def removeTrailingCommas (l : List Char) : List Char :=
  rtcScan l.length l

/-- Shallow embedding of `repairAndParseJson` from `lib/json-repair.ts`:
direct parse first; then strip fences, slice to the outermost braces
(failing with the explicit error when none are found), normalize smart
quotes, drop trailing commas, and re-parse. -/
def repairAndParseJson (raw : String) : RepairResult :=
  let direct := tryParseAndValidate raw
  if direct.parsed.isSome then direct
  else
    let text1 := stripMarkdownFences raw.data
    let text2 := extractJsonObject text1
    if text2 = [] then
      { parsed := none, error := some "No JSON object found in input" }
    else
      let text3 := normalizeSmartQuotes text2
      let text4 := removeTrailingCommas text3
      let repaired := tryParseAndValidate (String.mk text4)
      if repaired.parsed.isSome then repaired
      else
        { parsed := none,
          error := some (repaired.error.getD "Failed to parse and validate JSON") }


/-- One character of `JSON.stringify` string output. -/
def jsonEscapeChar (c : Char) : List Char :=
  if c = '"' then ['\\', '"']
  else if c = '\\' then ['\\', '\\']
  else if c = '\x08' then ['\\', 'b']
  else if c = '\t' then ['\\', 't']
  else if c = '\n' then ['\\', 'n']
  else if c = '\x0c' then ['\\', 'f']
  else if c = '\r' then ['\\', 'r']
  else if c.toNat < 32 then
    ['\\', 'u', '0', '0',
      (if c.toNat / 16 < 10 then Char.ofNat (c.toNat / 16 + '0'.toNat)
        else Char.ofNat (c.toNat / 16 - 10 + 'a'.toNat)),
      (if c.toNat % 16 < 10 then Char.ofNat (c.toNat % 16 + '0'.toNat)
        else Char.ofNat (c.toNat % 16 - 10 + 'a'.toNat))]
  else [c]

/-- `JSON.stringify` of a string. -/
def serStr (s : String) : List Char :=
  '"' :: s.data.flatMap jsonEscapeChar ++ ['"']

/-- `JSON.stringify` of one citation object, fields in schema order,
`undefined` fields omitted. -/
def serCitation (c : Citation) : List Char :=
  '{' :: ('"' :: "url".data ++ '"' :: ':' :: serStr c.url)
    ++ (match c.title with
        | some t => ',' :: '"' :: "title".data ++ '"' :: ':' :: serStr t
        | none => [])
    ++ (match c.snippet with
        | some sp => ',' :: '"' :: "snippet".data ++ '"' :: ':' :: serStr sp
        | none => [])
    ++ ['}']

/-- The serialized citation array content after a first element. -/
def serCitationsMore : List Citation → List Char
  | [] => [']']
  | c :: rest => ',' :: serCitation c ++ serCitationsMore rest

/-- The serialized citation array content after the opening bracket,
including the closing bracket. -/
def serCitations : List Citation → List Char
  | [] => [']']
  | c :: rest => serCitation c ++ serCitationsMore rest

/-- The serialized payload content after the opening brace, including the
closing brace. -/
def serPayloadInner (p : LlmResponsePayload) : List Char :=
  ('"' :: "answerText".data ++ '"' :: ':' :: serStr p.answerText)
    ++ ',' :: ('"' :: "citations".data ++ '"' :: ':' :: '[' :: serCitations p.citations)
    ++ (match p.notes with
        | some n => ',' :: '"' :: "notes".data ++ '"' :: ':' :: serStr n
        | none => [])
    ++ ['}']

/-- The clean JSON text of a payload: `JSON.stringify` with fields in
schema order. -/
def stringifyPayload (p : LlmResponsePayload) : String :=
  String.mk ('{' :: serPayloadInner p)

/-- A character the repair heuristics pass through unharmed: printable, and
none of the quote, backslash, brace, bracket, backtick, or typographic-quote
characters the pipeline treats as markers or rewrites. -/
def safeChar (c : Char) : Bool :=
  32 ≤ c.toNat && c ≠ '"' && c ≠ '\\' && c ≠ '{' && c ≠ '}' && c ≠ '['
    && c ≠ ']' && c ≠ '`' && c ≠ '“' && c ≠ '”' && c ≠ '‘' && c ≠ '’'

/-- All characters of a string are safe. -/
def SafeString (s : String) : Prop :=
  ∀ c ∈ s.data, safeChar c = true

instance (s : String) : Decidable (SafeString s) :=
  List.decidableBAll (fun c => safeChar c = true) s.data

/-- All characters of an optional string are safe. -/
def SafeOptString : Option String → Prop
  | some s => SafeString s
  | none => True

/-- Every string field of the payload is safe. -/
def SafePayload (p : LlmResponsePayload) : Prop :=
  SafeString p.answerText ∧ SafeOptString p.notes
    ∧ ∀ c ∈ p.citations,
        SafeString c.url ∧ SafeOptString c.title ∧ SafeOptString c.snippet

/-- Modelled from the spec: the transformation of the repair round-trip
property — replace the payload's quotes by typographic (smart) quotes. -/
def specSmartQuote (l : List Char) : List Char :=
  l.map (fun c => if c = '"' then '“' else c)

/-- Modelled from the spec: add a trailing comma before the closing
brace. -/
def specAddTrailingComma (l : List Char) : List Char :=
  if l.getLast? = some '}' then l.dropLast ++ [',', '}'] else l

/-- Modelled from the spec: wrap the payload in Markdown code fences. -/
def specFenceWrap (l : List Char) : List Char :=
  "```json\n".data ++ l ++ "\n```".data

/-- Modelled from the spec: the full transformation of claim C8 — fences
around the smart-quoted, trailing-comma form of the clean JSON. -/
def specTransform (s : String) : String :=
  String.mk (specFenceWrap (specSmartQuote (specAddTrailingComma s.data)))


/-- The JSON value of a citation, fields in schema order. -/
def citJson (c : Citation) : Json :=
  Json.obj (("url", Json.str c.url)
    :: ((match c.title with
        | some t => [("title", Json.str t)]
        | none => [])
      ++ (match c.snippet with
          | some sp => [("snippet", Json.str sp)]
          | none => [])))

/-- The JSON value of a payload, fields in schema order. -/
def payloadJson (p : LlmResponsePayload) : Json :=
  Json.obj (("answerText", Json.str p.answerText)
    :: ("citations", Json.arr (p.citations.map citJson))
    :: (match p.notes with
        | some n => [("notes", Json.str n)]
        | none => []))

/-- A safe character needs no JSON string escaping. -/
theorem jsonEscapeChar_safe (c : Char) (h : safeChar c = true) :
    jsonEscapeChar c = [c] := by
  simp only [safeChar, Bool.and_eq_true, decide_eq_true_eq] at h
  obtain ⟨⟨⟨⟨⟨⟨⟨⟨⟨⟨⟨h32, hq⟩, hb⟩, _⟩, _⟩, _⟩, _⟩, _⟩, _⟩, _⟩, _⟩, _⟩ := h
  unfold jsonEscapeChar
  rw [if_neg hq, if_neg hb]
  rw [if_neg (by intro hc; rw [hc] at h32; exact absurd h32 (by decide)),
    if_neg (by intro hc; rw [hc] at h32; exact absurd h32 (by decide)),
    if_neg (by intro hc; rw [hc] at h32; exact absurd h32 (by decide)),
    if_neg (by intro hc; rw [hc] at h32; exact absurd h32 (by decide)),
    if_neg (by intro hc; rw [hc] at h32; exact absurd h32 (by decide)),
    if_neg (by omega)]

/-- A safe string serializes to itself between quotes. -/
theorem serStr_safe (s : String) (hs : SafeString s) :
    serStr s = '"' :: s.data ++ ['"'] := by
  have hfm : ∀ l : List Char, (∀ c ∈ l, safeChar c = true) →
      l.flatMap jsonEscapeChar = l := by
    intro l hl
    induction l with
    | nil => rfl
    | cons c rest ih =>
      rw [List.flatMap_cons, jsonEscapeChar_safe c (hl c (by simp))]
      simp only [List.singleton_append, List.cons.injEq, true_and]
      exact ih (fun x hx => hl x (List.mem_cons_of_mem c hx))
  unfold serStr
  rw [hfm s.data hs]

/-- Parsing the body of a serialized safe string consumes it exactly. -/
theorem parseStringBody_safe (content : List Char)
    (h : ∀ c ∈ content, safeChar c = true) (rest : List Char) :
    parseStringBody (content ++ '"' :: rest) = some (content, rest) := by
  induction content with
  | nil =>
    rw [List.nil_append, parseStringBody.eq_def]
    simp
  | cons c cs ih =>
    have hc := h c (by simp)
    simp only [safeChar, Bool.and_eq_true, decide_eq_true_eq] at hc
    obtain ⟨⟨⟨⟨⟨⟨⟨⟨⟨⟨⟨h32, hq⟩, hb⟩, _⟩, _⟩, _⟩, _⟩, _⟩, _⟩, _⟩, _⟩, _⟩ := hc
    have hrec := ih (fun x hx => h x (List.mem_cons_of_mem c hx))
    rw [List.cons_append, parseStringBody.eq_def]
    simp only []
    rw [if_neg hq, if_neg hb, if_neg (by omega), hrec]
    rfl

/-- A non-whitespace head survives the token-whitespace skip. -/
theorem dropWhile_nonws (c : Char) (l : List Char)
    (h : isJsonWs c = false) :
    (c :: l).dropWhile isJsonWs = c :: l := by
  rw [List.dropWhile_cons, if_neg (by simp [h])]

/-- Round trip for string values: one fuel tick reads a serialized safe
string. -/
theorem parseValue_serStr (s : String) (hs : SafeString s) (f : Nat)
    (rest : List Char) :
    parseValue (f + 1) (serStr s ++ rest) = some (Json.str s, rest) := by
  rw [serStr_safe s hs]
  show parseValue (f + 1) ('"' :: (s.data ++ ['"']) ++ rest) = _
  rw [parseValue.eq_def]
  simp only []
  rw [List.cons_append, dropWhile_nonws '"' _ (by decide)]
  have hbody : parseStringBody (s.data ++ ['"'] ++ rest)
      = some (s.data, rest) := by
    rw [List.append_assoc]
    exact parseStringBody_safe s.data hs rest
  simp only [hbody]


/-- Reading one `"name": value` member that is followed by a comma and more
members. -/
theorem parseMembers_field_more (name : String) (hname : SafeString name)
    (f : Nat) (rest r4 r5 : List Char) (v : Json)
    (ms : List (String × Json))
    (hv : parseValue f rest = some (v, ',' :: r4))
    (hml : parseMemberList f r4 = some (ms, r5)) :
    parseMembers (f + 1) ('"' :: name.data ++ '"' :: ':' :: rest)
      = some ((name, v) :: ms, r5) := by
  rw [parseMembers.eq_def]
  simp only []
  rw [List.cons_append, dropWhile_nonws '"' _ (by decide)]
  have hk : parseStringBody (name.data ++ '"' :: ':' :: rest)
      = some (name.data, ':' :: rest) := parseStringBody_safe name.data hname _
  simp only [hk, dropWhile_nonws ':' rest (by decide), hv,
    dropWhile_nonws ',' r4 (by decide), hml]

/-- Reading one `"name": value` member that closes the object. -/
theorem parseMembers_field_last (name : String) (hname : SafeString name)
    (f : Nat) (rest r4 : List Char) (v : Json)
    (hv : parseValue f rest = some (v, '}' :: r4)) :
    parseMembers (f + 1) ('"' :: name.data ++ '"' :: ':' :: rest)
      = some ([(name, v)], r4) := by
  rw [parseMembers.eq_def]
  simp only []
  rw [List.cons_append, dropWhile_nonws '"' _ (by decide)]
  have hk : parseStringBody (name.data ++ '"' :: ':' :: rest)
      = some (name.data, ':' :: rest) := parseStringBody_safe name.data hname _
  simp only [hk, dropWhile_nonws ':' rest (by decide), hv,
    dropWhile_nonws '}' r4 (by decide)]

/-- Reading one member after a comma, with more members following. -/
theorem parseMemberList_field_more (name : String) (hname : SafeString name)
    (f : Nat) (rest r4 r5 : List Char) (v : Json)
    (ms : List (String × Json))
    (hv : parseValue f rest = some (v, ',' :: r4))
    (hml : parseMemberList f r4 = some (ms, r5)) :
    parseMemberList (f + 1) ('"' :: name.data ++ '"' :: ':' :: rest)
      = some ((name, v) :: ms, r5) := by
  rw [parseMemberList.eq_def]
  simp only []
  rw [List.cons_append, dropWhile_nonws '"' _ (by decide)]
  have hk : parseStringBody (name.data ++ '"' :: ':' :: rest)
      = some (name.data, ':' :: rest) := parseStringBody_safe name.data hname _
  simp only [hk, dropWhile_nonws ':' rest (by decide), hv,
    dropWhile_nonws ',' r4 (by decide), hml]

/-- Reading one member after a comma, closing the object. -/
theorem parseMemberList_field_last (name : String) (hname : SafeString name)
    (f : Nat) (rest r4 : List Char) (v : Json)
    (hv : parseValue f rest = some (v, '}' :: r4)) :
    parseMemberList (f + 1) ('"' :: name.data ++ '"' :: ':' :: rest)
      = some ([(name, v)], r4) := by
  rw [parseMemberList.eq_def]
  simp only []
  rw [List.cons_append, dropWhile_nonws '"' _ (by decide)]
  have hk : parseStringBody (name.data ++ '"' :: ':' :: rest)
      = some (name.data, ':' :: rest) := parseStringBody_safe name.data hname _
  simp only [hk, dropWhile_nonws ':' rest (by decide), hv,
    dropWhile_nonws '}' r4 (by decide)]

/-- One fuel tick turns a serialized object body into a parsed object. -/
theorem parseValue_obj (f : Nat) (l r : List Char)
    (ms : List (String × Json))
    (h : parseMembers f l = some (ms, r)) :
    parseValue (f + 1) ('{' :: l) = some (Json.obj ms, r) := by
  rw [parseValue.eq_def]
  simp only []
  rw [dropWhile_nonws '{' l (by decide)]
  simp only [h]


/-- A citation with safe fields. -/
def SafeCitation (c : Citation) : Prop :=
  SafeString c.url ∧ SafeOptString c.title ∧ SafeOptString c.snippet

/-- Round trip for one serialized citation: seven fuel ticks suffice for
any citation, whatever optional fields it carries. -/
theorem parseValue_serCitation (c : Citation) (hc : SafeCitation c)
    (f : Nat) (rest : List Char) :
    parseValue (f + 7) (serCitation c ++ rest) = some (citJson c, rest) := by
  obtain ⟨url, title, snippet⟩ := c
  obtain ⟨hurl, htitle, hsnippet⟩ := hc
  have hfuel : f + 7 = (f + 6) + 1 := by omega
  rw [hfuel]
  cases title with
  | none =>
    cases snippet with
    | none =>
      have hser : serCitation ⟨url, none, none⟩ ++ rest
          = '{' :: ('"' :: "url".data ++ '"' :: ':'
              :: (serStr url ++ '}' :: rest)) := by
        simp [serCitation]
      rw [hser]
      refine parseValue_obj _ _ _ _ ?_
      have h6 : f + 6 = (f + 5) + 1 := by omega
      rw [h6]
      refine parseMembers_field_last "url" (by decide) _ _ _ _ ?_
      have h5 : f + 5 = (f + 4) + 1 := by omega
      rw [h5]
      exact parseValue_serStr url hurl _ _
    | some sp =>
      have hsp : SafeString sp := hsnippet
      have hser : serCitation ⟨url, none, some sp⟩ ++ rest
          = '{' :: ('"' :: "url".data ++ '"' :: ':'
              :: (serStr url ++ ',' :: ('"' :: "snippet".data ++ '"' :: ':'
                :: (serStr sp ++ '}' :: rest)))) := by
        simp [serCitation]
      rw [hser]
      refine parseValue_obj _ _ _ _ ?_
      have h6 : f + 6 = (f + 5) + 1 := by omega
      rw [h6]
      apply parseMembers_field_more "url" (by decide)
      · have h5 : f + 5 = (f + 4) + 1 := by omega
        rw [h5]
        exact parseValue_serStr url hurl _ _
      · have h5 : f + 5 = (f + 4) + 1 := by omega
        rw [h5]
        refine parseMemberList_field_last "snippet" (by decide) _ _ _ _ ?_
        have h4 : f + 4 = (f + 3) + 1 := by omega
        rw [h4]
        exact parseValue_serStr sp hsp _ _
  | some t =>
    have ht : SafeString t := htitle
    cases snippet with
    | none =>
      have hser : serCitation ⟨url, some t, none⟩ ++ rest
          = '{' :: ('"' :: "url".data ++ '"' :: ':'
              :: (serStr url ++ ',' :: ('"' :: "title".data ++ '"' :: ':'
                :: (serStr t ++ '}' :: rest)))) := by
        simp [serCitation]
      rw [hser]
      refine parseValue_obj _ _ _ _ ?_
      have h6 : f + 6 = (f + 5) + 1 := by omega
      rw [h6]
      apply parseMembers_field_more "url" (by decide)
      · have h5 : f + 5 = (f + 4) + 1 := by omega
        rw [h5]
        exact parseValue_serStr url hurl _ _
      · have h5 : f + 5 = (f + 4) + 1 := by omega
        rw [h5]
        refine parseMemberList_field_last "title" (by decide) _ _ _ _ ?_
        have h4 : f + 4 = (f + 3) + 1 := by omega
        rw [h4]
        exact parseValue_serStr t ht _ _
    | some sp =>
      have hsp : SafeString sp := hsnippet
      have hser : serCitation ⟨url, some t, some sp⟩ ++ rest
          = '{' :: ('"' :: "url".data ++ '"' :: ':'
              :: (serStr url ++ ',' :: ('"' :: "title".data ++ '"' :: ':'
                :: (serStr t ++ ',' :: ('"' :: "snippet".data ++ '"' :: ':'
                  :: (serStr sp ++ '}' :: rest)))))) := by
        simp [serCitation]
      rw [hser]
      refine parseValue_obj _ _ _ _ ?_
      have h6 : f + 6 = (f + 5) + 1 := by omega
      rw [h6]
      apply parseMembers_field_more "url" (by decide)
      · have h5 : f + 5 = (f + 4) + 1 := by omega
        rw [h5]
        exact parseValue_serStr url hurl _ _
      · have h5 : f + 5 = (f + 4) + 1 := by omega
        rw [h5]
        apply parseMemberList_field_more "title" (by decide)
        · have h4 : f + 4 = (f + 3) + 1 := by omega
          rw [h4]
          exact parseValue_serStr t ht _ _
        · have h4 : f + 4 = (f + 3) + 1 := by omega
          rw [h4]
          refine parseMemberList_field_last "snippet" (by decide) _ _ _ _ ?_
          have h3 : f + 3 = (f + 2) + 1 := by omega
          rw [h3]
          exact parseValue_serStr sp hsp _ _


/-- An empty array closes immediately. -/
theorem parseElems_nil (f : Nat) (rest : List Char) :
    parseElems (f + 1) (']' :: rest) = some ([], rest) := by
  rw [parseElems.eq_def]
  simp only []
  rw [dropWhile_nonws ']' rest (by decide)]
  rfl

/-- Reading one array element followed by a comma and more elements. -/
theorem parseElemList_step_more (f : Nat) (l r2 r3 : List Char) (v : Json)
    (es : List Json) (hv : parseValue f l = some (v, ',' :: r2))
    (hml : parseElemList f r2 = some (es, r3)) :
    parseElemList (f + 1) l = some (v :: es, r3) := by
  rw [parseElemList.eq_def]
  simp only [hv, dropWhile_nonws ',' r2 (by decide), hml]

/-- Reading the final array element. -/
theorem parseElemList_step_last (f : Nat) (l r2 : List Char) (v : Json)
    (hv : parseValue f l = some (v, ']' :: r2)) :
    parseElemList (f + 1) l = some ([v], r2) := by
  rw [parseElemList.eq_def]
  simp only [hv, dropWhile_nonws ']' r2 (by decide)]

/-- Reading a nonempty array whose first element starts with a brace. -/
theorem parseElems_step_more (f : Nat) (l t r2 r3 : List Char) (v : Json)
    (es : List Json) (hd : l.dropWhile isJsonWs = '{' :: t)
    (hv : parseValue f l = some (v, ',' :: r2))
    (hml : parseElemList f r2 = some (es, r3)) :
    parseElems (f + 1) l = some (v :: es, r3) := by
  rw [parseElems.eq_def]
  simp only [hd, hv, dropWhile_nonws ',' r2 (by decide), hml]
  rfl

/-- Reading a one-element array whose element starts with a brace. -/
theorem parseElems_step_last (f : Nat) (l t r2 : List Char) (v : Json)
    (hd : l.dropWhile isJsonWs = '{' :: t)
    (hv : parseValue f l = some (v, ']' :: r2)) :
    parseElems (f + 1) l = some ([v], r2) := by
  rw [parseElems.eq_def]
  simp only [hd, hv, dropWhile_nonws ']' r2 (by decide)]
  rfl


/-- A serialized citation starts with an opening brace, bare of
whitespace. -/
theorem serCitation_head (c : Citation) (rest : List Char) :
    (serCitation c ++ rest).dropWhile isJsonWs
      = '{' :: ((serCitation c ++ rest).tail) := by
  obtain ⟨url, title, snippet⟩ := c
  simp only [serCitation, List.cons_append]
  rw [dropWhile_nonws '{' _ (by decide)]
  rfl

/-- Round trip for the tail of a serialized citation array. -/
theorem parseElemList_serCitations (more : List Citation) :
    ∀ (f : Nat) (c : Citation), (∀ x ∈ more, SafeCitation x) →
      SafeCitation c → ∀ rest : List Char,
      parseElemList (f + (8 * more.length + 8))
          (serCitation c ++ serCitationsMore more ++ rest)
        = some (citJson c :: more.map citJson, rest) := by
  induction more with
  | nil =>
    intro f c _ hc rest
    have h8 : f + (8 * ([] : List Citation).length + 8) = (f + 7) + 1 := by
      simp only [List.length_nil]
    rw [h8]
    have hser : serCitation c ++ serCitationsMore [] ++ rest
        = serCitation c ++ (']' :: rest) := by
      simp [serCitationsMore]
    rw [hser]
    exact parseElemList_step_last (f + 7) _ rest (citJson c)
      (parseValue_serCitation c hc f (']' :: rest))
  | cons c2 m2 ih =>
    intro f c hmore hc rest
    have hc2 : SafeCitation c2 := hmore c2 (by simp)
    have hm2 : ∀ x ∈ m2, SafeCitation x :=
      fun x hx => hmore x (List.mem_cons_of_mem c2 hx)
    have hlen : f + (8 * (c2 :: m2).length + 8)
        = (f + (8 * m2.length + 15)) + 1 := by
      simp only [List.length_cons]
      omega
    rw [hlen]
    have hser : serCitation c ++ serCitationsMore (c2 :: m2) ++ rest
        = serCitation c ++ (',' ::
            (serCitation c2 ++ serCitationsMore m2 ++ rest)) := by
      simp [serCitationsMore]
    rw [hser]
    apply parseElemList_step_more
    · have h7 : f + (8 * m2.length + 15) = (f + (8 * m2.length + 8)) + 7 := by
        omega
      rw [h7]
      exact parseValue_serCitation c hc _ _
    · have h7 : f + (8 * m2.length + 15) = (f + 7) + (8 * m2.length + 8) := by
        omega
      rw [h7]
      exact ih (f + 7) c2 hm2 hc2 rest

/-- Round trip for a serialized citation array, after the opening
bracket. -/
theorem parseElems_serCitations (cs : List Citation)
    (hcs : ∀ x ∈ cs, SafeCitation x) (f : Nat) (rest : List Char) :
    parseElems (f + (8 * cs.length + 9)) (serCitations cs ++ rest)
      = some (cs.map citJson, rest) := by
  cases cs with
  | nil =>
    have h9 : f + (8 * ([] : List Citation).length + 9) = (f + 8) + 1 := by
      simp only [List.length_nil]
    rw [h9]
    have hser : serCitations ([] : List Citation) ++ rest = ']' :: rest := by
      simp [serCitations]
    rw [hser]
    exact parseElems_nil _ _
  | cons c more =>
    have hc : SafeCitation c := hcs c (by simp)
    have hm : ∀ x ∈ more, SafeCitation x :=
      fun x hx => hcs x (List.mem_cons_of_mem c hx)
    have hser : serCitations (c :: more) ++ rest
        = serCitation c ++ serCitationsMore more ++ rest := by
      simp [serCitations]
    rw [hser]
    cases more with
    | nil =>
      have h9 : f + (8 * ([c] : List Citation).length + 9) = (f + 16) + 1 := by
        simp only [List.length_cons, List.length_nil]
      rw [h9]
      have hser2 : serCitation c ++ serCitationsMore ([] : List Citation)
          ++ rest = serCitation c ++ (']' :: rest) := by
        simp [serCitationsMore]
      refine parseElems_step_last (f + 16)
        (serCitation c ++ serCitationsMore ([] : List Citation) ++ rest)
        ((serCitation c ++ serCitationsMore ([] : List Citation) ++ rest).tail)
        rest (citJson c) ?_ ?_
      · rw [List.append_assoc]
        exact serCitation_head c _
      · rw [hser2]
        have h16 : f + 16 = (f + 9) + 7 := by omega
        rw [h16]
        exact parseValue_serCitation c hc _ _
    | cons c2 m2 =>
      have hlen : f + (8 * (c :: c2 :: m2).length + 9)
          = (f + (8 * (c2 :: m2).length + 16)) + 1 := by
        simp only [List.length_cons]
        omega
      rw [hlen]
      have hser2 : serCitation c ++ serCitationsMore (c2 :: m2) ++ rest
          = serCitation c ++ (',' ::
              (serCitation c2 ++ serCitationsMore m2 ++ rest)) := by
        simp [serCitationsMore]
      apply parseElems_step_more _ _
        ((serCitation c ++ serCitationsMore (c2 :: m2) ++ rest).tail)
      · rw [List.append_assoc]
        exact serCitation_head c _
      · rw [hser2]
        have h16 : f + (8 * (c2 :: m2).length + 16)
            = (f + (8 * (c2 :: m2).length + 9)) + 7 := by omega
        rw [h16]
        exact parseValue_serCitation c hc _ _
      · have h16 : f + (8 * (c2 :: m2).length + 16)
            = (f + 16) + (8 * m2.length + 8) := by
          simp only [List.length_cons]
          omega
        rw [h16]
        exact parseElemList_serCitations m2 (f + 16) c2
          (fun x hx => hm x (List.mem_cons_of_mem c2 hx))
          (hm c2 (by simp)) rest

/-- One fuel tick turns a serialized array body into a parsed array. -/
theorem parseValue_arr (f : Nat) (l r : List Char) (es : List Json)
    (h : parseElems f l = some (es, r)) :
    parseValue (f + 1) ('[' :: l) = some (Json.arr es, r) := by
  rw [parseValue.eq_def]
  simp only []
  rw [dropWhile_nonws '[' l (by decide)]
  simp only [h]

/-- Round trip for a serialized payload: the clean JSON of a safe payload
parses back to exactly its JSON value. -/
theorem parseValue_stringifyPayload (p : LlmResponsePayload)
    (hp : SafePayload p) (f : Nat) (rest : List Char) :
    parseValue (f + (8 * p.citations.length + 16))
        ('{' :: serPayloadInner p ++ rest)
      = some (payloadJson p, rest) := by
  obtain ⟨a, cs, notes⟩ := p
  obtain ⟨ha, hnotes, hcits⟩ := hp
  have hcs : ∀ x ∈ cs, SafeCitation x := fun x hx => hcits x hx
  cases notes with
  | none =>
    have hser : ('{' : Char) :: serPayloadInner ⟨a, cs, none⟩ ++ rest
        = '{' :: ('"' :: "answerText".data ++ '"' :: ':'
            :: (serStr a ++ ',' :: ('"' :: "citations".data ++ '"' :: ':'
              :: ('[' :: (serCitations cs ++ '}' :: rest))))) := by
      simp [serPayloadInner]
    rw [hser]
    have h0 : f + (8 * (⟨a, cs, none⟩ : LlmResponsePayload).citations.length
        + 16) = (f + (8 * cs.length + 15)) + 1 := by
      simp only []
      omega
    rw [h0]
    refine parseValue_obj _ _ _ _ ?_
    have h1 : f + (8 * cs.length + 15) = (f + (8 * cs.length + 14)) + 1 := by
      omega
    rw [h1]
    apply parseMembers_field_more "answerText" (by decide)
    · have h2 : f + (8 * cs.length + 14) = (f + (8 * cs.length + 13)) + 1 := by
        omega
      rw [h2]
      exact parseValue_serStr a ha _ _
    · have h2 : f + (8 * cs.length + 14) = (f + (8 * cs.length + 13)) + 1 := by
        omega
      rw [h2]
      refine parseMemberList_field_last "citations" (by decide) _ _ _ _ ?_
      have h3 : f + (8 * cs.length + 13) = (f + (8 * cs.length + 12)) + 1 := by
        omega
      rw [h3]
      refine parseValue_arr _ _ _ _ ?_
      have h4 : f + (8 * cs.length + 12) = (f + 3) + (8 * cs.length + 9) := by
        omega
      rw [h4]
      exact parseElems_serCitations cs hcs (f + 3) ('}' :: rest)
  | some n =>
    have hn : SafeString n := hnotes
    have hser : ('{' : Char) :: serPayloadInner ⟨a, cs, some n⟩ ++ rest
        = '{' :: ('"' :: "answerText".data ++ '"' :: ':'
            :: (serStr a ++ ',' :: ('"' :: "citations".data ++ '"' :: ':'
              :: ('[' :: (serCitations cs ++ ',' :: ('"' :: "notes".data
                ++ '"' :: ':' :: (serStr n ++ '}' :: rest))))))) := by
      simp [serPayloadInner]
    rw [hser]
    have h0 : f + (8 * (⟨a, cs, some n⟩ : LlmResponsePayload).citations.length
        + 16) = (f + (8 * cs.length + 15)) + 1 := by
      simp only []
      omega
    rw [h0]
    refine parseValue_obj _ _ _ _ ?_
    have h1 : f + (8 * cs.length + 15) = (f + (8 * cs.length + 14)) + 1 := by
      omega
    rw [h1]
    apply parseMembers_field_more "answerText" (by decide)
    · have h2 : f + (8 * cs.length + 14) = (f + (8 * cs.length + 13)) + 1 := by
        omega
      rw [h2]
      exact parseValue_serStr a ha _ _
    · have h2 : f + (8 * cs.length + 14) = (f + (8 * cs.length + 13)) + 1 := by
        omega
      rw [h2]
      apply parseMemberList_field_more "citations" (by decide)
      · have h3 : f + (8 * cs.length + 13) = (f + (8 * cs.length + 12)) + 1 := by
          omega
        rw [h3]
        refine parseValue_arr _ _ _ _ ?_
        have h4 : f + (8 * cs.length + 12) = (f + 3) + (8 * cs.length + 9) := by
          omega
        rw [h4]
        exact parseElems_serCitations cs hcs (f + 3) _
      · have h3 : f + (8 * cs.length + 13) = (f + (8 * cs.length + 12)) + 1 := by
          omega
        rw [h3]
        refine parseMemberList_field_last "notes" (by decide) _ _ _ _ ?_
        have h4 : f + (8 * cs.length + 12) = (f + (8 * cs.length + 11)) + 1 := by
          omega
        rw [h4]
        exact parseValue_serStr n hn _ _


/-- A serialized string is at least its two quotes. -/
theorem serStr_length_ge (s : String) : 2 ≤ (serStr s).length := by
  unfold serStr
  simp only [List.length_cons, List.length_append, List.length_singleton]
  omega

/-- A serialized citation is at least its mandatory skeleton. -/
theorem serCitation_length_ge (c : Citation) :
    10 ≤ (serCitation c).length := by
  obtain ⟨url, title, snippet⟩ := c
  have hu := serStr_length_ge url
  cases title <;> cases snippet <;>
    simp only [serCitation, List.length_cons, List.length_append,
      List.length_singleton, String.length_data] <;>
    omega

/-- Length bound for the serialized citation-array tail. -/
theorem serCitationsMore_length_ge (more : List Citation) :
    8 * more.length + 1 ≤ (serCitationsMore more).length := by
  induction more with
  | nil => simp [serCitationsMore]
  | cons c rest ih =>
    have hc := serCitation_length_ge c
    simp only [serCitationsMore, List.length_cons, List.length_append]
    omega

/-- Length bound for the serialized citation array. -/
theorem serCitations_length_ge (cs : List Citation) :
    8 * cs.length + 1 ≤ (serCitations cs).length := by
  cases cs with
  | nil => simp [serCitations]
  | cons c rest =>
    have hc := serCitation_length_ge c
    have hm := serCitationsMore_length_ge rest
    simp only [serCitations, List.length_cons, List.length_append]
    omega

/-- The serialized payload is long enough to fuel its own parse. -/
theorem serPayloadInner_length_ge (p : LlmResponsePayload) :
    8 * p.citations.length + 16 ≤ (serPayloadInner p).length + 2 := by
  obtain ⟨a, cs, notes⟩ := p
  have ha := serStr_length_ge a
  have hc := serCitations_length_ge cs
  cases notes <;>
    simp only [serPayloadInner, List.length_cons, List.length_append,
      List.length_singleton] <;>
    omega

/-- `JSON.parse` of the clean JSON of a safe payload. -/
theorem jsonParse_stringifyPayload (p : LlmResponsePayload)
    (hp : SafePayload p) :
    jsonParse (stringifyPayload p) = some (payloadJson p) := by
  unfold jsonParse stringifyPayload
  have hlen := serPayloadInner_length_ge p
  have hfuel : (String.mk ('{' :: serPayloadInner p)).data.length + 1
      = ((serPayloadInner p).length + 2 - (8 * p.citations.length + 16))
        + (8 * p.citations.length + 16) := by
    simp only [List.length_cons]
    omega
  rw [hfuel]
  have hin : (String.mk ('{' :: serPayloadInner p)).data
      = '{' :: serPayloadInner p ++ [] := by
    simp
  rw [hin, parseValue_stringifyPayload p hp _ []]
  rfl


/-- The JSON value of a citation validates back to the citation. -/
theorem validateCitation_citJson (c : Citation) :
    validateCitation (citJson c) = some c := by
  obtain ⟨url, title, snippet⟩ := c
  cases title <;> cases snippet <;>
    simp [citJson, validateCitation, objLookupLast, optStringField,
      List.find?]

/-- The JSON values of a citation list validate back to the list. -/
theorem validateCitations_citJson (cs : List Citation) :
    validateCitations (cs.map citJson) = some cs := by
  induction cs with
  | nil => rfl
  | cons c rest ih =>
    simp only [List.map_cons, validateCitations, validateCitation_citJson c,
      ih]

/-- The JSON value of a payload validates back to the payload. -/
theorem llmResponseValidate_payloadJson (p : LlmResponsePayload) :
    llmResponseValidate (payloadJson p) = some p := by
  obtain ⟨a, cs, notes⟩ := p
  cases notes <;>
    simp [payloadJson, llmResponseValidate, objLookupLast, optStringField,
      List.find?, validateCitations_citJson]

/-- The direct parse of the clean JSON of a safe payload succeeds with
exactly the payload. -/
theorem tryParseAndValidate_stringifyPayload (p : LlmResponsePayload)
    (hp : SafePayload p) :
    tryParseAndValidate (stringifyPayload p)
      = { parsed := some p, error := none } := by
  unfold tryParseAndValidate
  rw [jsonParse_stringifyPayload p hp]
  simp only [llmResponseValidate_payloadJson p]


/-- No JSON value starts with a backtick: the direct parse of fenced text
fails. -/
theorem parseValue_backtick (fuel : Nat) (l : List Char) :
    parseValue fuel ('`' :: l) = none := by
  cases fuel with
  | zero => rfl
  | succ f =>
    rw [parseValue.eq_def]
    simp only []
    rw [dropWhile_nonws '`' l (by decide)]
    rfl

/-- A character the serializer can emit: a safe payload character or one of
the structural JSON characters. -/
def plainChar (c : Char) : Bool :=
  safeChar c || c = '"' || c = '{' || c = '}' || c = '[' || c = ']'
    || c = ':' || c = ','

/-- All characters of a list are plain. -/
def PlainL (l : List Char) : Prop :=
  ∀ c ∈ l, plainChar c = true

theorem plainL_append {a b : List Char} (ha : PlainL a) (hb : PlainL b) :
    PlainL (a ++ b) := by
  intro c hc
  rcases List.mem_append.mp hc with h | h
  · exact ha c h
  · exact hb c h

theorem plainL_cons {c : Char} {l : List Char} (hc : plainChar c = true)
    (hl : PlainL l) : PlainL (c :: l) := by
  intro x hx
  rcases List.mem_cons.mp hx with rfl | h
  · exact hc
  · exact hl x h

/-- A serialized safe string is plain. -/
theorem plainL_serStr (s : String) (hs : SafeString s) :
    PlainL (serStr s) := by
  rw [serStr_safe s hs]
  refine plainL_cons (by decide) (plainL_append ?_ ?_)
  · intro c hc
    simp only [plainChar, Bool.or_eq_true, decide_eq_true_eq]
    exact Or.inl (Or.inl (Or.inl (Or.inl (Or.inl (Or.inl (Or.inl (hs c hc)))))))
  · intro c hc
    rcases List.mem_singleton.mp hc with rfl
    decide

/-- A serialized citation is plain. -/
theorem plainL_serCitation (c : Citation) (hc : SafeCitation c) :
    PlainL (serCitation c) := by
  obtain ⟨url, title, snippet⟩ := c
  obtain ⟨hurl, htitle, hsnippet⟩ := hc
  have hu : ∀ x ∈ serStr url, plainChar x = true := plainL_serStr url hurl
  cases title with
  | none =>
    cases snippet with
    | none =>
      have ht : ∀ x ∈ ([] : List Char), plainChar x = true := by decide
      simp only [PlainL, serCitation, List.forall_mem_cons,
        List.forall_mem_append]
      repeat' apply And.intro
      all_goals first | decide | assumption
    | some sp =>
      have hsp : ∀ x ∈ serStr sp, plainChar x = true :=
        plainL_serStr sp hsnippet
      simp only [PlainL, serCitation, List.forall_mem_cons,
        List.forall_mem_append]
      repeat' apply And.intro
      all_goals first | decide | assumption
  | some t =>
    have ht : ∀ x ∈ serStr t, plainChar x = true := plainL_serStr t htitle
    cases snippet with
    | none =>
      simp only [PlainL, serCitation, List.forall_mem_cons,
        List.forall_mem_append]
      repeat' apply And.intro
      all_goals first | decide | assumption
    | some sp =>
      have hsp : ∀ x ∈ serStr sp, plainChar x = true :=
        plainL_serStr sp hsnippet
      simp only [PlainL, serCitation, List.forall_mem_cons,
        List.forall_mem_append]
      repeat' apply And.intro
      all_goals first | decide | assumption

/-- The serialized citation-array tail is plain. -/
theorem plainL_serCitationsMore (cs : List Citation)
    (h : ∀ c ∈ cs, SafeCitation c) : PlainL (serCitationsMore cs) := by
  induction cs with
  | nil =>
    intro x hx
    rcases List.mem_singleton.mp hx with rfl
    decide
  | cons c rest ih =>
    simp only [serCitationsMore]
    refine plainL_cons (by decide) (plainL_append ?_ ?_)
    · exact plainL_serCitation c (h c (List.mem_cons_self c rest))
    · exact ih (fun d hd => h d (List.mem_cons_of_mem c hd))

/-- The serialized citation array is plain. -/
theorem plainL_serCitations (cs : List Citation)
    (h : ∀ c ∈ cs, SafeCitation c) : PlainL (serCitations cs) := by
  cases cs with
  | nil =>
    intro x hx
    rcases List.mem_singleton.mp hx with rfl
    decide
  | cons c rest =>
    simp only [serCitations]
    refine plainL_append ?_ ?_
    · exact plainL_serCitation c (h c (List.mem_cons_self c rest))
    · exact plainL_serCitationsMore rest
        (fun d hd => h d (List.mem_cons_of_mem c hd))

/-- The serialized payload body is plain. -/
theorem plainL_serPayloadInner (p : LlmResponsePayload) (hp : SafePayload p) :
    PlainL (serPayloadInner p) := by
  obtain ⟨ha, hn, hcs⟩ := hp
  have h1 : ∀ x ∈ serStr p.answerText, plainChar x = true :=
    plainL_serStr p.answerText ha
  have h2 : ∀ x ∈ serCitations p.citations, plainChar x = true :=
    plainL_serCitations p.citations hcs
  cases hnp : p.notes with
  | none =>
    simp only [PlainL, serPayloadInner, hnp, List.forall_mem_cons,
      List.forall_mem_append]
    repeat' apply And.intro
    all_goals first | decide | assumption
  | some n =>
    have h3 : ∀ x ∈ serStr n, plainChar x = true :=
      plainL_serStr n (by rw [hnp] at hn; exact hn)
    simp only [PlainL, serPayloadInner, hnp, List.forall_mem_cons,
      List.forall_mem_append]
    repeat' apply And.intro
    all_goals first | decide | assumption

/-- Normalizing the smart quotes of a smart-quoted plain text restores the
text: the only typographic quote the transformation introduces maps back to
the straight quote, and a plain character is never itself a typographic
quote. -/
theorem normalizeSmartQuotes_specSmartQuote (l : List Char) (h : PlainL l) :
    normalizeSmartQuotes (specSmartQuote l) = l := by
  induction l with
  | nil => rfl
  | cons c rest ih =>
    have hp : plainChar c = true := h c (List.mem_cons_self c rest)
    have hrest := ih (fun x hx => h x (List.mem_cons_of_mem c hx))
    simp only [specSmartQuote, normalizeSmartQuotes, List.map_cons,
      List.map_map] at hrest ⊢
    rw [List.cons_eq_cons]
    refine ⟨?_, hrest⟩
    by_cases hq : c = '"'
    · subst hq; decide
    · rw [if_neg hq]
      have h1 : ¬ c = '“' := fun he => by
        rw [he] at hp; exact absurd hp (by decide)
      have h2 : ¬ c = '”' := fun he => by
        rw [he] at hp; exact absurd hp (by decide)
      have h3 : ¬ c = '‘' := fun he => by
        rw [he] at hp; exact absurd hp (by decide)
      have h4 : ¬ c = '’' := fun he => by
        rw [he] at hp; exact absurd hp (by decide)
      simp [h1, h2, h3, h4]

/-- The serialized payload body splits off its final closing brace. -/
theorem serPayloadInner_concat (p : LlmResponsePayload) :
    ∃ X, serPayloadInner p = X ++ ['\x7d'] := by
  unfold serPayloadInner
  cases p.notes with
  | none => exact ⟨_, rfl⟩
  | some n => exact ⟨_, rfl⟩

/-- Adding the spec transformation's trailing comma to the clean JSON text
of a payload inserts a comma before the final brace. -/
theorem specAddTrailingComma_stringify (X : List Char) :
    specAddTrailingComma ('\x7b' :: (X ++ ['\x7d']))
      = ('\x7b' :: X) ++ [',', '\x7d'] := by
  unfold specAddTrailingComma
  rw [show '\x7b' :: (X ++ ['\x7d']) = ('\x7b' :: X) ++ ['\x7d'] from rfl]
  rw [List.getLast?_concat, if_pos rfl, List.dropLast_concat]

/-- Smart-quoting a brace-wrapped text keeps the braces and the injected
comma. -/
theorem specSmartQuote_shape (X : List Char) :
    specSmartQuote (('\x7b' :: X) ++ [',', '\x7d'])
      = '\x7b' :: ((specSmartQuote X ++ [',']) ++ ['\x7d']) := by
  unfold specSmartQuote
  rw [List.map_append, List.map_cons]
  simp only [List.map_cons, List.map_nil]
  rw [if_neg (by decide : ¬ ('\x7b' : Char) = '"'),
    if_neg (by decide : ¬ (',' : Char) = '"'),
    if_neg (by decide : ¬ ('\x7d' : Char) = '"')]
  simp [List.append_assoc]

/-- Three backticks are never a prefix of a text starting with another
character. -/
theorem isPrefixOf_bts_false (c : Char) (r : List Char) (hc : c ≠ '`') :
    List.isPrefixOf ['`', '`', '`'] (c :: r) = false := by
  have hbeq : (('`' : Char) == c) = false := by
    rw [beq_eq_false_iff_ne]
    exact fun he => hc he.symm
  simp [List.isPrefixOf, hbeq]

/-- Dropping whitespace skips over an all-whitespace block. -/
theorem dropWhile_all_append (w z : List Char)
    (h : ∀ x ∈ w, jsWs x = true) :
    (w ++ z).dropWhile jsWs = z.dropWhile jsWs := by
  induction w with
  | nil => rfl
  | cons c w' ih =>
    rw [List.cons_append, List.dropWhile_cons,
      if_pos (h c (List.mem_cons_self c w'))]
    exact ih (fun x hx => h x (List.mem_cons_of_mem c hx))

/-- Inside a backtick-free block ending in a closing brace, no closing
fence can start: after any whitespace skip the next character comes from
the block and is not a backtick. -/
theorem bts_prefix_dropWhile_false (L tail : List Char)
    (hbt : ∀ c ∈ L, c ≠ '`') (hlast : L.getLast? = some '\x7d') :
    List.isPrefixOf ['`', '`', '`'] ((L ++ tail).dropWhile jsWs) = false := by
  induction L with
  | nil => simp at hlast
  | cons c L' ih =>
    rw [List.cons_append, List.dropWhile_cons]
    by_cases hw : jsWs c = true
    · rw [if_pos hw]
      cases L' with
      | nil =>
        have hc : c = '\x7d' := by
          have : ([c] : List Char).getLast? = some c := rfl
          rw [this] at hlast
          exact Option.some.inj hlast
        rw [hc] at hw
        exact absurd hw (by decide)
      | cons d L'' =>
        exact ih (fun x hx => hbt x (List.mem_cons_of_mem c hx))
          (by rw [← hlast]; rfl)
    · rw [if_neg hw]
      exact isPrefixOf_bts_false c _ (hbt c (List.mem_cons_self c L'))

/-- The closing fence after a backtick-free block ending in a brace is
found exactly at the block's length. -/
theorem fenceCloseIdx_aux (L : List Char)
    (hbt : ∀ c ∈ L, c ≠ '`') (hlast : L.getLast? = some '\x7d') :
    fenceCloseIdx (L ++ '\n' :: '`' :: '`' :: '`' :: [])
      = some L.length := by
  induction L with
  | nil => simp at hlast
  | cons c L' ih =>
    rw [List.cons_append, fenceCloseIdx.eq_def]
    have hfalse := bts_prefix_dropWhile_false (c :: L')
      ('\n' :: '`' :: '`' :: '`' :: []) hbt hlast
    rw [List.cons_append] at hfalse
    simp only [hfalse, Bool.false_eq_true, if_false]
    cases L' with
    | nil =>
      have hc : c = '\x7d' := by
        have : ([c] : List Char).getLast? = some c := rfl
        rw [this] at hlast
        exact Option.some.inj hlast
      subst hc
      rfl
    | cons d L'' =>
      rw [ih (fun x hx => hbt x (List.mem_cons_of_mem c hx))
        (by rw [← hlast]; rfl)]
      rfl

/-- Taking the length of the left block of an append returns the block. -/
theorem take_len_append {α : Type} (a b : List α) :
    (a ++ b).take a.length = a := by
  induction a with
  | nil => rfl
  | cons c a' ih =>
    rw [List.cons_append, List.length_cons, List.take_succ_cons, ih]

/-- Trimming a brace-wrapped text changes nothing: both ends are already
non-whitespace. -/
theorem trimChars_brace (M : List Char) :
    trimChars ('\x7b' :: (M ++ ['\x7d'])) = '\x7b' :: (M ++ ['\x7d']) := by
  unfold trimChars
  rw [List.dropWhile_cons, if_neg (by decide : ¬ jsWs '\x7b' = true)]
  have hrev : ('\x7b' :: (M ++ ['\x7d'])).reverse
      = '\x7d' :: (M.reverse ++ ['\x7b']) := by
    simp [List.reverse_cons, List.reverse_append]
  rw [hrev, List.dropWhile_cons, if_neg (by decide : ¬ jsWs '\x7d' = true),
    ← hrev, List.reverse_reverse]

/-- Stripping the Markdown fences of a fence-wrapped brace-delimited
backtick-free block returns exactly the block. -/
theorem stripMarkdownFences_wrap (M : List Char)
    (hM : ∀ c ∈ M, c ≠ '`') :
    stripMarkdownFences (specFenceWrap ('\x7b' :: (M ++ ['\x7d'])))
      = '\x7b' :: (M ++ ['\x7d']) := by
  have hT : specFenceWrap ('\x7b' :: (M ++ ['\x7d']))
      = '`' :: '`' :: '`' :: 'j' :: 's' :: 'o' :: 'n' :: '\n' ::
        (('\x7b' :: (M ++ ['\x7d'])) ++ '\n' :: '`' :: '`' :: '`' :: []) := by
    unfold specFenceWrap
    rw [List.append_assoc]
    rfl
  have hbtB : ∀ c ∈ '\x7b' :: (M ++ ['\x7d']), c ≠ '`' := by
    intro c hc
    rcases List.mem_cons.mp hc with rfl | hc2
    · decide
    · rcases List.mem_append.mp hc2 with h | h
      · exact hM c h
      · rcases List.mem_singleton.mp h with rfl
        decide
  have hlastB : ('\x7b' :: (M ++ ['\x7d'])).getLast? = some '\x7d' := by
    rw [show '\x7b' :: (M ++ ['\x7d']) = ('\x7b' :: M) ++ ['\x7d'] from rfl,
      List.getLast?_concat]
  have hfind : findSubIdx ['`', '`', '`']
      ('`' :: '`' :: '`' :: 'j' :: 's' :: 'o' :: 'n' :: '\n' ::
        (('\x7b' :: (M ++ ['\x7d'])) ++ '\n' :: '`' :: '`' :: '`' :: []))
      = some 0 := by
    rw [findSubIdx.eq_def]
    simp [List.isPrefixOf]
  have hdw : (('\x7b' :: (M ++ ['\x7d'])) ++ '\n' :: '`' :: '`' :: '`' :: []).dropWhile jsWs
      = ('\x7b' :: (M ++ ['\x7d'])) ++ '\n' :: '`' :: '`' :: '`' :: [] := by
    rw [List.cons_append, List.dropWhile_cons,
      if_neg (by decide : ¬ jsWs '\x7b' = true)]
  have hfc : fenceCloseIdx
      (('\x7b' :: (M ++ ['\x7d'])) ++ '\n' :: '`' :: '`' :: '`' :: [])
      = some ('\x7b' :: (M ++ ['\x7d'])).length :=
    fenceCloseIdx_aux _ hbtB hlastB
  rw [hT]
  unfold stripMarkdownFences
  rw [hfind]
  simp only [List.drop_succ_cons, List.drop_zero]
  rw [show List.isPrefixOf ['j', 's', 'o', 'n']
      ('j' :: 's' :: 'o' :: 'n' :: '\n' ::
        (('\x7b' :: (M ++ ['\x7d'])) ++ '\n' :: '`' :: '`' :: '`' :: []))
      = true from by simp [List.isPrefixOf]]
  simp only [if_true, List.drop_succ_cons, List.drop_zero]
  rw [List.dropWhile_cons, if_pos (by decide : jsWs '\n' = true), hdw, hfc]
  simp only []
  rw [← List.cons_append, take_len_append]
  exact trimChars_brace M

/-- Slicing a brace-wrapped text from its first opening brace to its last
closing brace returns the whole text. -/
theorem extractJsonObject_brace (M : List Char) :
    extractJsonObject ('\x7b' :: (M ++ ['\x7d'])) = '\x7b' :: (M ++ ['\x7d']) := by
  have h1 : firstIdxOf '\x7b' ('\x7b' :: (M ++ ['\x7d'])) = some 0 := by
    rw [firstIdxOf.eq_def]
    simp
  have hrev : ('\x7b' :: (M ++ ['\x7d'])).reverse
      = '\x7d' :: (M.reverse ++ ['\x7b']) := by
    simp [List.reverse_cons, List.reverse_append]
  have h2 : lastIdxOf '\x7d' ('\x7b' :: (M ++ ['\x7d'])) = some (M.length + 1) := by
    unfold lastIdxOf
    rw [hrev]
    rw [show firstIdxOf '\x7d' ('\x7d' :: (M.reverse ++ ['\x7b'])) = some 0 from by
      rw [firstIdxOf.eq_def]; simp]
    simp only []
    have hL : ('\x7b' :: (M ++ ['\x7d'])).length - 1 - 0 = M.length + 1 := by
      simp only [List.length_cons, List.length_append, List.length_nil]
      omega
    rw [hL]
  unfold extractJsonObject
  rw [h1, h2]
  simp only []
  rw [if_neg (by omega : ¬ (M.length + 1 ≤ 0)), List.drop_zero]
  have hlen : ('\x7b' :: (M ++ ['\x7d'])).length = M.length + 1 + 1 := by
    simp only [List.length_cons, List.length_append, List.length_nil]
  rw [← hlen, List.take_length]

/-- Scanning a non-comma character emits it and continues. -/
theorem rtcScan_cons_ne (c : Char) (hc : c ≠ ',') (f : Nat)
    (tail : List Char) :
    rtcScan (f + 1) (c :: tail) = c :: rtcScan f tail := by
  rw [rtcScan.eq_def]
  split
  · omega
  · next heq => simp at heq
  · next fuel rest heq1 heq2 =>
      injection heq2 with h1 h2
      exact absurd h1 hc
  · next fuel c2 rest heq1 heq2 =>
      injection heq1 with h1
      injection heq2 with h2 h3
      subst h1; subst h2; subst h3; rfl

/-- Scanning a comma whose whitespace-skipped successor is not a closing
brace or bracket keeps the comma and continues right after it. -/
theorem rtcScan_comma_keep (f : Nat) (rest : List Char) (y : Char)
    (r2 : List Char) (hdw : rest.dropWhile jsWs = y :: r2)
    (hy1 : y ≠ '\x7d') (hy2 : y ≠ ']') :
    rtcScan (f + 1) (',' :: rest) = ',' :: rtcScan f rest := by
  have hb : (decide (y = '\x7d') || decide (y = ']')) = false := by
    rw [decide_eq_false hy1, decide_eq_false hy2]
    rfl
  rw [rtcScan.eq_def]
  split
  · omega
  · next heq => simp at heq
  · next fuel rest' heq1 heq2 =>
      injection heq1 with h1
      injection heq2 with h2 h3
      subst h1; subst h3
      rw [hdw]
      simp only [hb, Bool.false_eq_true, if_false]
  · next fuel c2 rest' heq1 heq2 =>
      injection heq1 with h1
      injection heq2 with h2 h3
      subst h1; subst h3
      rw [← h2]

/-- A block that the trailing-comma scan passes through unchanged, spending
fuel equal to its length. -/
def RtcPass (chunk : List Char) : Prop :=
  ∀ f tail, rtcScan (f + chunk.length) (chunk ++ tail)
    = chunk ++ rtcScan f tail

theorem rtcPass_nil : RtcPass [] := fun _ _ => rfl

theorem rtcPass_cons (c : Char) (hc : c ≠ ',') {l : List Char}
    (h : RtcPass l) : RtcPass (c :: l) := by
  intro f tail
  have hlen : f + (c :: l).length = (f + l.length) + 1 := by
    simp only [List.length_cons]
    omega
  rw [hlen, List.cons_append, rtcScan_cons_ne c hc, h f tail,
    List.cons_append]

theorem rtcPass_append {a b : List Char} (ha : RtcPass a)
    (hb : RtcPass b) : RtcPass (a ++ b) := by
  intro f tail
  have hlen : f + (a ++ b).length = (f + b.length) + a.length := by
    simp only [List.length_append]
    omega
  rw [hlen, List.append_assoc, ha (f + b.length) (b ++ tail), hb f tail,
    List.append_assoc]

theorem rtcPass_nocomma (l : List Char) (h : ∀ c ∈ l, c ≠ ',') :
    RtcPass l := by
  induction l with
  | nil => exact rtcPass_nil
  | cons c l' ih =>
    exact rtcPass_cons c (h c (List.mem_cons_self c l'))
      (ih (fun x hx => h x (List.mem_cons_of_mem c hx)))

theorem rtcPass_comma_cons (y : Char) (r : List Char)
    (hy0 : jsWs y = false) (hy1 : y ≠ '\x7d') (hy2 : y ≠ ']')
    (h : RtcPass (y :: r)) : RtcPass (',' :: y :: r) := by
  intro f tail
  have hlen : f + (',' :: y :: r).length = (f + (y :: r).length) + 1 := by
    simp only [List.length_cons]
    omega
  rw [hlen, List.cons_append,
    rtcScan_comma_keep _ _ y (r ++ tail)
      (by rw [List.cons_append, List.dropWhile_cons,
        if_neg (by rw [hy0]; simp)]) hy1 hy2,
    h f tail, List.cons_append]
  rfl

/-- Decomposing safe string content before its closing quote: skipping
whitespace always lands on a safe non-whitespace character or on the quote,
never on a closing brace or bracket. -/
theorem safe_ws_decomp (cs : List Char)
    (h : ∀ c ∈ cs, safeChar c = true) :
    ∃ w y r, cs ++ ['"'] = w ++ y :: r ∧ (∀ x ∈ w, jsWs x = true)
      ∧ jsWs y = false ∧ y ≠ '\x7d' ∧ y ≠ ']' := by
  induction cs with
  | nil => exact ⟨[], '"', [], rfl, by simp, by decide, by decide, by decide⟩
  | cons c cs' ih =>
    by_cases hw : jsWs c = true
    · obtain ⟨w, y, r, heq, hws, hy0, hy1, hy2⟩ :=
        ih (fun x hx => h x (List.mem_cons_of_mem c hx))
      refine ⟨c :: w, y, r, ?_, ?_, hy0, hy1, hy2⟩
      · rw [List.cons_append, heq, List.cons_append]
      · intro x hx
        rcases List.mem_cons.mp hx with rfl | hx2
        · exact hw
        · exact hws x hx2
    · rw [Bool.not_eq_true] at hw
      have hc := h c (List.mem_cons_self c cs')
      have hy1 : c ≠ '\x7d' := fun he => by
        rw [he] at hc; exact absurd hc (by decide)
      have hy2 : c ≠ ']' := fun he => by
        rw [he] at hc; exact absurd hc (by decide)
      exact ⟨[], c, cs' ++ ['"'], rfl, by simp, hw, hy1, hy2⟩

/-- The scan passes through safe string content followed by its closing
quote. -/
theorem rtcPass_strTail (cs : List Char)
    (h : ∀ c ∈ cs, safeChar c = true) : RtcPass (cs ++ ['"']) := by
  induction cs with
  | nil => exact rtcPass_nocomma ['"'] (by decide)
  | cons c cs' ih =>
    have hrest := ih (fun x hx => h x (List.mem_cons_of_mem c hx))
    by_cases hcm : c = ','
    · subst hcm
      obtain ⟨w, y, r, heq, hws, hy0, hy1, hy2⟩ :=
        safe_ws_decomp cs' (fun x hx => h x (List.mem_cons_of_mem _ hx))
      intro f tail
      have hlen : f + ((',' :: cs') ++ ['"']).length
          = (f + (cs' ++ ['"']).length) + 1 := by
        simp only [List.cons_append, List.length_cons]
        omega
      rw [hlen, show ((',' :: cs') ++ ['"']) ++ tail
          = ',' :: ((cs' ++ ['"']) ++ tail) from rfl,
        rtcScan_comma_keep _ _ y (r ++ tail)
          (by rw [heq, List.append_assoc, dropWhile_all_append w _ hws,
            List.cons_append, List.dropWhile_cons,
            if_neg (by rw [hy0]; simp)]) hy1 hy2,
        hrest f tail]
      rfl
    · exact rtcPass_cons c hcm hrest

/-- The scan passes through a serialized safe string. -/
theorem rtcPass_serStr (s : String) (hs : SafeString s) :
    RtcPass (serStr s) := by
  rw [serStr_safe s hs]
  exact rtcPass_cons '"' (by decide) (rtcPass_strTail s.data hs)

/-- The scan passes through a serialized citation. -/
theorem rtcPass_serCitation (c : Citation) (hc : SafeCitation c) :
    RtcPass (serCitation c) := by
  obtain ⟨url, title, snippet⟩ := c
  obtain ⟨hurl, htitle, hsnippet⟩ := hc
  have hseg : ∀ (k : List Char) (s' : String), SafeString s' →
      (∀ x ∈ k, x ≠ ',') →
      RtcPass ('"' :: (k ++ '"' :: ':' :: serStr s')) := by
    intro k s' hs' hk
    refine rtcPass_cons '"' (by decide) ?_
    refine rtcPass_append (rtcPass_nocomma k hk) ?_
    exact rtcPass_cons '"' (by decide)
      (rtcPass_cons ':' (by decide) (rtcPass_serStr s' hs'))
  have hu := hseg "url".data url hurl (by decide)
  cases title with
  | none =>
    cases snippet with
    | none =>
      simp only [serCitation]
      refine rtcPass_cons '\x7b' (by decide) ?_
      exact rtcPass_append (rtcPass_append (rtcPass_append hu rtcPass_nil)
        rtcPass_nil) (rtcPass_nocomma ['\x7d'] (by decide))
    | some sp =>
      have hsp := hseg "snippet".data sp hsnippet (by decide)
      simp only [serCitation]
      refine rtcPass_cons '\x7b' (by decide) ?_
      refine rtcPass_append (rtcPass_append (rtcPass_append hu rtcPass_nil)
        ?_) (rtcPass_nocomma ['\x7d'] (by decide))
      exact rtcPass_comma_cons '"' _ (by decide) (by decide) (by decide) hsp
  | some t =>
    have ht := hseg "title".data t htitle (by decide)
    cases snippet with
    | none =>
      simp only [serCitation]
      refine rtcPass_cons '\x7b' (by decide) ?_
      refine rtcPass_append (rtcPass_append (rtcPass_append hu ?_)
        rtcPass_nil) (rtcPass_nocomma ['\x7d'] (by decide))
      exact rtcPass_comma_cons '"' _ (by decide) (by decide) (by decide) ht
    | some sp =>
      have hsp := hseg "snippet".data sp hsnippet (by decide)
      simp only [serCitation]
      refine rtcPass_cons '\x7b' (by decide) ?_
      refine rtcPass_append (rtcPass_append (rtcPass_append hu ?_) ?_)
        (rtcPass_nocomma ['\x7d'] (by decide))
      · exact rtcPass_comma_cons '"' _ (by decide) (by decide) (by decide) ht
      · exact rtcPass_comma_cons '"' _ (by decide) (by decide) (by decide) hsp

/-- The scan passes through the serialized citation-array tail. -/
theorem rtcPass_serCitationsMore (cs : List Citation)
    (h : ∀ c ∈ cs, SafeCitation c) : RtcPass (serCitationsMore cs) := by
  induction cs with
  | nil => exact rtcPass_nocomma [']'] (by decide)
  | cons c rest ih =>
    have hcit := rtcPass_serCitation c (h c (List.mem_cons_self c rest))
    have hmore := ih (fun d hd => h d (List.mem_cons_of_mem c hd))
    obtain ⟨inner, hinner⟩ : ∃ inner, serCitation c = '\x7b' :: inner :=
      ⟨_, rfl⟩
    simp only [serCitationsMore, hinner, List.cons_append]
    refine rtcPass_comma_cons '\x7b' (inner ++ serCitationsMore rest)
      (by decide) (by decide) (by decide) ?_
    rw [← List.cons_append, ← hinner]
    exact rtcPass_append hcit hmore

/-- The scan passes through the serialized citation array body. -/
theorem rtcPass_serCitations (cs : List Citation)
    (h : ∀ c ∈ cs, SafeCitation c) : RtcPass (serCitations cs) := by
  cases cs with
  | nil => exact rtcPass_nocomma [']'] (by decide)
  | cons c rest =>
    simp only [serCitations]
    exact rtcPass_append
      (rtcPass_serCitation c (h c (List.mem_cons_self c rest)))
      (rtcPass_serCitationsMore rest
        (fun d hd => h d (List.mem_cons_of_mem c hd)))

/-- The clean payload body before its final closing brace is a block the
trailing-comma scan passes through unchanged. -/
theorem rtcPass_innerX (p : LlmResponsePayload) (hp : SafePayload p) :
    ∃ X, serPayloadInner p = X ++ ['\x7d'] ∧ RtcPass ('\x7b' :: X) := by
  obtain ⟨ha, hn, hcs⟩ := hp
  have hA : RtcPass
      ('"' :: ("answerText".data ++ '"' :: ':' :: serStr p.answerText)) := by
    refine rtcPass_cons '"' (by decide) ?_
    refine rtcPass_append (rtcPass_nocomma _ (by decide)) ?_
    exact rtcPass_cons '"' (by decide)
      (rtcPass_cons ':' (by decide) (rtcPass_serStr _ ha))
  have hB : RtcPass (',' :: '"' ::
      ("citations".data ++ '"' :: ':' :: '[' :: serCitations p.citations)) := by
    refine rtcPass_comma_cons '"' _ (by decide) (by decide) (by decide) ?_
    refine rtcPass_cons '"' (by decide) ?_
    refine rtcPass_append (rtcPass_nocomma _ (by decide)) ?_
    exact rtcPass_cons '"' (by decide) (rtcPass_cons ':' (by decide)
      (rtcPass_cons '[' (by decide) (rtcPass_serCitations _ hcs)))
  cases hnp : p.notes with
  | none =>
    refine ⟨('"' :: "answerText".data ++ '"' :: ':' :: serStr p.answerText)
      ++ (',' :: '"' :: "citations".data ++ '"' :: ':' :: '[' ::
          serCitations p.citations)
      ++ [], ?_, ?_⟩
    · unfold serPayloadInner
      rw [hnp]
      rfl
    · exact rtcPass_cons '\x7b' (by decide)
        (rtcPass_append (rtcPass_append hA hB) rtcPass_nil)
  | some n =>
    have hn' : SafeString n := by rw [hnp] at hn; exact hn
    have hM : RtcPass (',' :: '"' ::
        ("notes".data ++ '"' :: ':' :: serStr n)) := by
      refine rtcPass_comma_cons '"' _ (by decide) (by decide) (by decide) ?_
      refine rtcPass_cons '"' (by decide) ?_
      refine rtcPass_append (rtcPass_nocomma _ (by decide)) ?_
      exact rtcPass_cons '"' (by decide)
        (rtcPass_cons ':' (by decide) (rtcPass_serStr _ hn'))
    refine ⟨('"' :: "answerText".data ++ '"' :: ':' :: serStr p.answerText)
      ++ (',' :: '"' :: "citations".data ++ '"' :: ':' :: '[' ::
          serCitations p.citations)
      ++ (',' :: '"' :: "notes".data ++ '"' :: ':' :: serStr n), ?_, ?_⟩
    · unfold serPayloadInner
      rw [hnp]
      rfl
    · exact rtcPass_cons '\x7b' (by decide)
        (rtcPass_append (rtcPass_append hA hB) hM)

/-- Removing trailing commas from the comma-injected clean body removes
exactly the injected comma. -/
theorem removeTrailingCommas_addComma (X : List Char)
    (h : RtcPass ('\x7b' :: X)) :
    removeTrailingCommas (('\x7b' :: X) ++ [',', '\x7d'])
      = ('\x7b' :: X) ++ ['\x7d'] := by
  unfold removeTrailingCommas
  have hlen : (('\x7b' :: X) ++ [',', '\x7d']).length
      = 2 + ('\x7b' :: X).length := by
    simp only [List.length_append, List.length_cons, List.length_nil]
    omega
  rw [hlen, h 2 [',', '\x7d'],
    show rtcScan 2 [',', '\x7d'] = ['\x7d'] from by decide]

/-- The repair pipeline recovers a safe payload from its fenced,
smart-quoted, trailing-comma form: the direct parse fails on the fence,
fence stripping and brace slicing recover the comma-injected body, quote
normalization undoes the smart quotes, and the trailing-comma removal
deletes exactly the injected comma, leaving the clean JSON. -/
theorem repair_specTransform (p : LlmResponsePayload) (hp : SafePayload p) :
    repairAndParseJson (specTransform (stringifyPayload p))
      = { parsed := some p, error := none } := by
  obtain ⟨X, hX, hXrtc⟩ := rtcPass_innerX p hp
  have hXplain : PlainL ('\x7b' :: X) := by
    have hinner := plainL_serPayloadInner p hp
    intro c hc
    rcases List.mem_cons.mp hc with rfl | hcX
    · decide
    · exact hinner c (by rw [hX]; exact List.mem_append_left _ hcX)
  have hbase_plain : PlainL (('\x7b' :: X) ++ [',', '\x7d']) := by
    refine plainL_append hXplain ?_
    intro x hx
    rcases List.mem_cons.mp hx with rfl | hx2
    · decide
    · rcases List.mem_singleton.mp hx2 with rfl
      decide
  have hdata : (specTransform (stringifyPayload p)).data
      = specFenceWrap (specSmartQuote (('\x7b' :: X) ++ [',', '\x7d'])) := by
    show specFenceWrap (specSmartQuote
      (specAddTrailingComma (stringifyPayload p).data)) = _
    rw [show (stringifyPayload p).data = '\x7b' :: serPayloadInner p from rfl,
      hX, specAddTrailingComma_stringify]
  have hM : ∀ c ∈ specSmartQuote X ++ [','], c ≠ '`' := by
    intro c hc
    rcases List.mem_append.mp hc with h1 | h2
    · simp only [specSmartQuote] at h1
      obtain ⟨x, hxX, rfl⟩ := List.mem_map.mp h1
      by_cases hq : x = '"'
      · rw [if_pos hq]; decide
      · rw [if_neg hq]
        have hpl := hXplain x (List.mem_cons_of_mem _ hxX)
        exact fun he => by rw [he] at hpl; exact absurd hpl (by decide)
    · rcases List.mem_singleton.mp h2 with rfl
      decide
  obtain ⟨rest0, hrest0⟩ :
      ∃ rest0, (specTransform (stringifyPayload p)).data = '`' :: rest0 := by
    refine ⟨'`' :: '`' :: 'j' :: 's' :: 'o' :: 'n' :: '\n' ::
      (specSmartQuote (('\x7b' :: X) ++ [',', '\x7d'])
        ++ '\n' :: '`' :: '`' :: '`' :: []), ?_⟩
    rw [hdata]
    rfl
  have hdirect : tryParseAndValidate (specTransform (stringifyPayload p))
      = { parsed := none, error := some "JSON parse error" } := by
    unfold tryParseAndValidate jsonParse
    rw [hrest0, parseValue_backtick]
  have hback : String.mk (('\x7b' :: X) ++ ['\x7d']) = stringifyPayload p := by
    unfold stringifyPayload
    rw [hX]
    rfl
  simp only [repairAndParseJson]
  rw [hdirect, if_neg (by decide)]
  rw [hdata, specSmartQuote_shape, stripMarkdownFences_wrap _ hM,
    extractJsonObject_brace, if_neg (List.cons_ne_nil _ _),
    ← specSmartQuote_shape, normalizeSmartQuotes_specSmartQuote _ hbase_plain,
    removeTrailingCommas_addComma X hXrtc, hback,
    tryParseAndValidate_stringifyPayload p hp,
    if_pos (show ({ parsed := some p, error := none }
      : RepairResult).parsed.isSome = true from rfl)]

/-- A mapped parse result keeps the remaining-input component. -/
theorem map_snd_eq {o : Option (List Char × List Char)}
    (g : List Char → List Char) {s r : List Char}
    (h : o.map (fun p => (g p.1, p.2)) = some (s, r)) :
    ∃ s2, o = some (s2, r) := by
  cases o with
  | none => simp at h
  | some q =>
    obtain ⟨a, b⟩ := q
    simp only [Option.map_some', Option.some.injEq, Prod.mk.injEq] at h
    exact ⟨a, by rw [h.2]⟩

/-- The input remaining after a parsed string body is a suffix of the
input. -/
theorem parseStringBody_suffix_aux (n : Nat) :
    ∀ (l s r : List Char), l.length ≤ n →
      parseStringBody l = some (s, r) → r <:+ l := by
  induction n with
  | zero =>
    intro l s r hlen h
    cases l with
    | nil => simp [parseStringBody] at h
    | cons c rest => simp at hlen
  | succ n ih =>
    intro l s r hlen h
    cases l with
    | nil => simp [parseStringBody] at h
    | cons c rest =>
      rw [parseStringBody.eq_def] at h
      simp only [] at h
      by_cases hq : c = '"'
      · rw [if_pos hq] at h
        simp only [Option.some.injEq, Prod.mk.injEq] at h
        rw [← h.2]
        exact List.suffix_cons c rest
      · rw [if_neg hq] at h
        by_cases hb : c = '\\'
        · rw [if_pos hb] at h
          cases rest with
          | nil => simp at h
          | cons e rest1 =>
            simp only [] at h
            have hlen1 : rest1.length ≤ n := by
              simp only [List.length_cons] at hlen
              omega
            split at h
            rotate_left 8
            case _ =>
              split at h
              · rename_i h1 h2 h3 h4 rest2
                split at h
                · split at h
                  · exact Option.noConfusion h
                  · obtain ⟨s2, hps⟩ := map_snd_eq _ h
                    have hlen2 : rest2.length ≤ n := by
                      simp only [List.length_cons] at hlen1
                      omega
                    exact (((((((ih rest2 s2 r hlen2 hps).trans
                      (List.suffix_cons h4 _)).trans
                      (List.suffix_cons h3 _)).trans
                      (List.suffix_cons h2 _)).trans
                      (List.suffix_cons h1 _)).trans
                      (List.suffix_cons _ _)).trans
                      (List.suffix_cons c _))
                · exact Option.noConfusion h
              · exact Option.noConfusion h
            case _ => exact Option.noConfusion h
            all_goals
              obtain ⟨s2, hps⟩ := map_snd_eq _ h
              exact ((ih rest1 s2 r hlen1 hps).trans
                (List.suffix_cons _ rest1)).trans (List.suffix_cons c _)
        · rw [if_neg hb] at h
          split at h
          · exact Option.noConfusion h
          · obtain ⟨s2, hps⟩ := map_snd_eq _ h
            have hlen1 : rest.length ≤ n := by
              simp only [List.length_cons] at hlen
              omega
            exact (ih rest s2 r hlen1 hps).trans (List.suffix_cons c rest)

/-- Suffix form of `parseStringBody_suffix_aux` without the length
bound. -/
theorem parseStringBody_suffix (l s r : List Char)
    (h : parseStringBody l = some (s, r)) : r <:+ l :=
  parseStringBody_suffix_aux l.length l s r (Nat.le_refl _) h

/-- The input remaining after a parsed integer part is a suffix of the
input. -/
theorem parseIntPart_suffix (l s r : List Char)
    (h : parseIntPart l = some (s, r)) : r <:+ l := by
  rw [parseIntPart.eq_def] at h
  split at h
  · exact absurd h (by simp)
  · next rest =>
      simp only [Option.some.injEq, Prod.mk.injEq] at h
      rw [← h.2]
      exact List.suffix_cons _ _
  · next c rest hne =>
      split at h
      · simp only [Option.some.injEq, Prod.mk.injEq] at h
        rw [← h.2]
        exact (List.dropWhile_suffix _).trans (List.suffix_cons c rest)
      · exact absurd h (by simp)

/-- The input remaining after the exponent part is a suffix of the point
where the exponent candidate began. -/
theorem expPart_suffix (e : Char) (r orig : List Char) (hro : r <:+ orig) :
    (parseNumberLexeme.expPart e r orig).2 <:+ orig := by
  unfold parseNumberLexeme.expPart
  split
  next sgn r2 heq =>
    have h2 : r2 <:+ r := by
      split at heq
      · injection heq with hs1 hs2
        rw [← hs2]
        exact List.suffix_cons '+' _
      · injection heq with hs1 hs2
        rw [← hs2]
        exact List.suffix_cons '-' _
      · injection heq with hs1 hs2
        rw [← hs2]
    split
    · exact List.suffix_refl orig
    · exact ((List.dropWhile_suffix _).trans h2).trans hro

/-- The input remaining after a parsed number lexeme is a suffix of the
input. -/
theorem parseNumberLexeme_suffix (l lex r : List Char)
    (h : parseNumberLexeme l = some (lex, r)) : r <:+ l := by
  have hfrac : ∀ (t : List Char), t <:+ l →
      (match t with
        | '.' :: rf =>
          match rf.takeWhile isDigitChar with
          | [] => (([] : List Char), t)
          | ds => ('.' :: ds, rf.dropWhile isDigitChar)
        | _ => (([] : List Char), t)).2 <:+ l := by
    intro t ht
    split
    · rename_i rf
      split
      · exact ht
      · exact ((List.dropWhile_suffix _).trans
          (List.suffix_cons '.' rf)).trans ht
    · exact ht
  have hexp : ∀ (t : List Char), t <:+ l →
      (match t with
        | 'e' :: rr => parseNumberLexeme.expPart 'e' rr t
        | 'E' :: rr => parseNumberLexeme.expPart 'E' rr t
        | _ => (([] : List Char), t)).2 <:+ l := by
    intro t ht
    split
    · exact (expPart_suffix 'e' _ _ (List.suffix_cons 'e' _)).trans ht
    · exact (expPart_suffix 'E' _ _ (List.suffix_cons 'E' _)).trans ht
    · exact ht
  unfold parseNumberLexeme at h
  split at h
  next neg l1 heq0 =>
    have hl1 : l1 <:+ l := by
      split at heq0
      · injection heq0 with hs1 hs2
        rw [← hs2]
        exact List.suffix_cons '-' _
      · injection heq0 with hs1 hs2
        rw [← hs2]
    cases hip : parseIntPart l1 with
    | none => rw [hip] at h; exact Option.noConfusion h
    | some p =>
      obtain ⟨ip, l2⟩ := p
      rw [hip] at h
      have hl2 : l2 <:+ l := (parseIntPart_suffix l1 ip l2 hip).trans hl1
      simp only [Option.some.injEq, Prod.mk.injEq] at h
      rw [← h.2]
      exact hexp _ (hfrac l2 hl2)

/-- The tail after the whitespace-skipped head character is a suffix of the
original input. -/
theorem tail_dropWhile_suffix (a : Char) (t u : List Char)
    (he : u.dropWhile isJsonWs = a :: t) : t <:+ u :=
  (List.suffix_cons a t).trans (he ▸ List.dropWhile_suffix isJsonWs)

/-- The remaining input of every mutual parser is a suffix of its input:
each parser only consumes characters from the front. -/
theorem parsers_suffix (fuel : Nat) :
    (∀ l v r, parseValue fuel l = some (v, r) → r <:+ l)
    ∧ (∀ l ms r, parseMembers fuel l = some (ms, r) → r <:+ l)
    ∧ (∀ l ms r, parseMemberList fuel l = some (ms, r) → r <:+ l)
    ∧ (∀ l es r, parseElems fuel l = some (es, r) → r <:+ l)
    ∧ (∀ l es r, parseElemList fuel l = some (es, r) → r <:+ l) := by
  induction fuel with
  | zero =>
    refine ⟨?_, ?_, ?_, ?_, ?_⟩ <;> intro l a r h <;>
      simp [parseValue, parseMembers, parseMemberList, parseElems,
        parseElemList] at h
  | succ f ih =>
    obtain ⟨ihV, ihM, ihML, ihE, ihEL⟩ := ih
    have memberCore : ∀ (l r1 : List Char) (ms : List (String × Json))
        (r : List Char),
        l.dropWhile isJsonWs = '"' :: r1 →
        (match parseStringBody r1 with
          | some (k, r2) =>
            match r2.dropWhile isJsonWs with
            | ':' :: r3 =>
              match parseValue f r3 with
              | some (v, r4) =>
                match r4.dropWhile isJsonWs with
                | ',' :: r5 =>
                  match parseMemberList f r5 with
                  | some (ms2, r6) => some ((String.mk k, v) :: ms2, r6)
                  | none => none
                | '\x7d' :: r5 => some ([(String.mk k, v)], r5)
                | _ => none
              | none => none
            | _ => none
          | none => none) = some (ms, r) → r <:+ l := by
      intro l r1 ms r heq h
      cases hps : parseStringBody r1 with
      | none => rw [hps] at h; exact Option.noConfusion h
      | some q =>
        obtain ⟨k, r2⟩ := q
        rw [hps] at h
        simp only [] at h
        split at h
        · rename_i r3 heq2
          cases hv : parseValue f r3 with
          | none => rw [hv] at h; exact Option.noConfusion h
          | some q2 =>
            obtain ⟨v, r4⟩ := q2
            rw [hv] at h
            simp only [] at h
            split at h
            · rename_i r5 heq3
              cases hml : parseMemberList f r5 with
              | none => rw [hml] at h; exact Option.noConfusion h
              | some q3 =>
                obtain ⟨ms2, r6⟩ := q3
                rw [hml] at h
                simp only [Option.some.injEq, Prod.mk.injEq] at h
                rw [← h.2]
                exact (((((ihML r5 ms2 r6 hml).trans
                  (tail_dropWhile_suffix ',' r5 r4 heq3)).trans
                  (ihV r3 v r4 hv)).trans
                  (tail_dropWhile_suffix ':' r3 r2 heq2)).trans
                  (parseStringBody_suffix r1 k r2 hps)).trans
                  (tail_dropWhile_suffix '"' r1 l heq)
            · rename_i r5 heq3
              simp only [Option.some.injEq, Prod.mk.injEq] at h
              rw [← h.2]
              exact ((((tail_dropWhile_suffix '\x7d' r5 r4 heq3).trans
                (ihV r3 v r4 hv)).trans
                (tail_dropWhile_suffix ':' r3 r2 heq2)).trans
                (parseStringBody_suffix r1 k r2 hps)).trans
                (tail_dropWhile_suffix '"' r1 l heq)
            · exact Option.noConfusion h
        · exact Option.noConfusion h
    refine ⟨?_, ?_, ?_, ?_, ?_⟩
    · -- parseValue
      intro l v r h
      rw [parseValue.eq_def] at h
      simp only [] at h
      split at h
      · rename_i r1 heq
        cases hm : parseMembers f r1 with
        | none => rw [hm] at h; exact Option.noConfusion h
        | some q =>
          obtain ⟨ms, r2⟩ := q
          rw [hm] at h
          simp only [Option.some.injEq, Prod.mk.injEq] at h
          rw [← h.2]
          exact (ihM r1 ms r2 hm).trans (tail_dropWhile_suffix '\x7b' r1 l heq)
      · rename_i r1 heq
        cases hm : parseElems f r1 with
        | none => rw [hm] at h; exact Option.noConfusion h
        | some q =>
          obtain ⟨es, r2⟩ := q
          rw [hm] at h
          simp only [Option.some.injEq, Prod.mk.injEq] at h
          rw [← h.2]
          exact (ihE r1 es r2 hm).trans (tail_dropWhile_suffix '[' r1 l heq)
      · rename_i r1 heq
        cases hps : parseStringBody r1 with
        | none => rw [hps] at h; exact Option.noConfusion h
        | some q =>
          obtain ⟨sb, r2⟩ := q
          rw [hps] at h
          simp only [Option.some.injEq, Prod.mk.injEq] at h
          rw [← h.2]
          exact (parseStringBody_suffix r1 sb r2 hps).trans
            (tail_dropWhile_suffix '"' r1 l heq)
      · rename_i r1 heq
        split at h
        · simp only [Option.some.injEq, Prod.mk.injEq] at h
          rw [← h.2]
          exact (List.drop_suffix 3 r1).trans
            (tail_dropWhile_suffix 't' r1 l heq)
        · exact Option.noConfusion h
      · rename_i r1 heq
        split at h
        · simp only [Option.some.injEq, Prod.mk.injEq] at h
          rw [← h.2]
          exact (List.drop_suffix 4 r1).trans
            (tail_dropWhile_suffix 'f' r1 l heq)
        · exact Option.noConfusion h
      · rename_i r1 heq
        split at h
        · simp only [Option.some.injEq, Prod.mk.injEq] at h
          rw [← h.2]
          exact (List.drop_suffix 3 r1).trans
            (tail_dropWhile_suffix 'n' r1 l heq)
        · exact Option.noConfusion h
      · rename_i c r1 n1 n2 n3 n4 n5 n6 heq
        split at h
        · cases hn : parseNumberLexeme (c :: r1) with
          | none => rw [hn] at h; exact Option.noConfusion h
          | some q =>
            obtain ⟨lex, r2⟩ := q
            rw [hn] at h
            simp only [Option.some.injEq, Prod.mk.injEq] at h
            rw [← h.2]
            exact (parseNumberLexeme_suffix _ _ _ hn).trans
              (heq ▸ List.dropWhile_suffix isJsonWs)
        · exact Option.noConfusion h
      · exact Option.noConfusion h
    · -- parseMembers
      intro l ms r h
      rw [parseMembers.eq_def] at h
      simp only [] at h
      split at h
      · rename_i r1 heq
        simp only [Option.some.injEq, Prod.mk.injEq] at h
        rw [← h.2]
        exact tail_dropWhile_suffix '\x7d' r1 l heq
      · rename_i r1 heq
        exact memberCore l r1 ms r heq h
      · exact Option.noConfusion h
    · -- parseMemberList
      intro l ms r h
      rw [parseMemberList.eq_def] at h
      simp only [] at h
      split at h
      · rename_i r1 heq
        exact memberCore l r1 ms r heq h
      · exact Option.noConfusion h
    · -- parseElems
      intro l es r h
      rw [parseElems.eq_def] at h
      simp only [] at h
      split at h
      · rename_i r1 heq
        simp only [Option.some.injEq, Prod.mk.injEq] at h
        rw [← h.2]
        exact tail_dropWhile_suffix ']' r1 l heq
      · cases hv : parseValue f l with
        | none => rw [hv] at h; exact Option.noConfusion h
        | some q =>
          obtain ⟨v, r1⟩ := q
          rw [hv] at h
          simp only [] at h
          split at h
          · rename_i r2 heq2
            cases hel : parseElemList f r2 with
            | none => rw [hel] at h; exact Option.noConfusion h
            | some q2 =>
              obtain ⟨es2, r3⟩ := q2
              rw [hel] at h
              simp only [Option.some.injEq, Prod.mk.injEq] at h
              rw [← h.2]
              exact ((ihEL r2 es2 r3 hel).trans
                (tail_dropWhile_suffix ',' r2 r1 heq2)).trans
                (ihV l v r1 hv)
          · rename_i r2 heq2
            simp only [Option.some.injEq, Prod.mk.injEq] at h
            rw [← h.2]
            exact (tail_dropWhile_suffix ']' r2 r1 heq2).trans (ihV l v r1 hv)
          · exact Option.noConfusion h
    · -- parseElemList
      intro l es r h
      rw [parseElemList.eq_def] at h
      simp only [] at h
      cases hv : parseValue f l with
      | none => rw [hv] at h; exact Option.noConfusion h
      | some q =>
        obtain ⟨v, r1⟩ := q
        rw [hv] at h
        simp only [] at h
        split at h
        · rename_i r2 heq2
          cases hel : parseElemList f r2 with
          | none => rw [hel] at h; exact Option.noConfusion h
          | some q2 =>
            obtain ⟨es2, r3⟩ := q2
            rw [hel] at h
            simp only [Option.some.injEq, Prod.mk.injEq] at h
            rw [← h.2]
            exact ((ihEL r2 es2 r3 hel).trans
              (tail_dropWhile_suffix ',' r2 r1 heq2)).trans
              (ihV l v r1 hv)
        · rename_i r2 heq2
          simp only [Option.some.injEq, Prod.mk.injEq] at h
          rw [← h.2]
          exact (tail_dropWhile_suffix ']' r2 r1 heq2).trans (ihV l v r1 hv)
        · exact Option.noConfusion h

/-- A successful object-member parse implies a closing brace is present in
the input. -/
theorem parseMembers_rbrace (fuel : Nat) :
    (∀ l ms r, parseMembers fuel l = some (ms, r) → '\x7d' ∈ l)
    ∧ (∀ l ms r, parseMemberList fuel l = some (ms, r) → '\x7d' ∈ l) := by
  induction fuel with
  | zero =>
    constructor <;> intro l ms r h <;>
      simp [parseMembers, parseMemberList] at h
  | succ f ih =>
    obtain ⟨ihM, ihML⟩ := ih
    have hsub : ∀ (u t : List Char), t <:+ u → '\x7d' ∈ t → '\x7d' ∈ u :=
      fun u t hst hm => hst.sublist.subset hm
    have hdw : ∀ (u : List Char) (a : Char) (t : List Char),
        u.dropWhile isJsonWs = a :: t → '\x7d' ∈ a :: t → '\x7d' ∈ u :=
      fun u a t he hm =>
        (he ▸ List.dropWhile_suffix isJsonWs).sublist.subset hm
    have memberCore : ∀ (l r1 : List Char) (ms : List (String × Json))
        (r : List Char),
        l.dropWhile isJsonWs = '"' :: r1 →
        (match parseStringBody r1 with
          | some (k, r2) =>
            match r2.dropWhile isJsonWs with
            | ':' :: r3 =>
              match parseValue f r3 with
              | some (v, r4) =>
                match r4.dropWhile isJsonWs with
                | ',' :: r5 =>
                  match parseMemberList f r5 with
                  | some (ms2, r6) => some ((String.mk k, v) :: ms2, r6)
                  | none => none
                | '\x7d' :: r5 => some ([(String.mk k, v)], r5)
                | _ => none
              | none => none
            | _ => none
          | none => none) = some (ms, r) → '\x7d' ∈ l := by
      intro l r1 ms r heq h
      cases hps : parseStringBody r1 with
      | none => rw [hps] at h; exact Option.noConfusion h
      | some q =>
        obtain ⟨k, r2⟩ := q
        rw [hps] at h
        simp only [] at h
        split at h
        · rename_i r3 heq2
          cases hv : parseValue f r3 with
          | none => rw [hv] at h; exact Option.noConfusion h
          | some q2 =>
            obtain ⟨v, r4⟩ := q2
            rw [hv] at h
            simp only [] at h
            have up : '\x7d' ∈ r4 → '\x7d' ∈ l := fun hm =>
              hdw l '"' r1 heq (List.mem_cons_of_mem _
                (hsub r1 r2 (parseStringBody_suffix r1 k r2 hps)
                  (hdw r2 ':' r3 heq2 (List.mem_cons_of_mem _
                    (hsub r3 r4 ((parsers_suffix f).1 r3 v r4 hv) hm)))))
            split at h
            · rename_i r5 heq3
              cases hml : parseMemberList f r5 with
              | none => rw [hml] at h; exact Option.noConfusion h
              | some q3 =>
                obtain ⟨ms2, r6⟩ := q3
                exact up (hdw r4 ',' r5 heq3
                  (List.mem_cons_of_mem _ (ihML r5 ms2 r6 hml)))
            · rename_i r5 heq3
              exact up (hdw r4 '\x7d' r5 heq3 (List.mem_cons_self _ _))
            · exact Option.noConfusion h
        · exact Option.noConfusion h
    constructor
    · intro l ms r h
      rw [parseMembers.eq_def] at h
      simp only [] at h
      split at h
      · rename_i r1 heq
        exact hdw l '\x7d' r1 heq (List.mem_cons_self _ _)
      · rename_i r1 heq
        exact memberCore l r1 ms r heq h
      · exact Option.noConfusion h
    · intro l ms r h
      rw [parseMemberList.eq_def] at h
      simp only [] at h
      split at h
      · rename_i r1 heq
        exact memberCore l r1 ms r heq h
      · exact Option.noConfusion h

/-- The input contains an opening brace with a closing brace somewhere
after it. -/
def HasBracePair (l : List Char) : Prop :=
  ∃ a b c, l = a ++ '\x7b' :: (b ++ '\x7d' :: c)

/-- A brace pair in an infix block is a brace pair in the whole text. -/
theorem hasBracePair_mono {l1 l2 : List Char} (h : l1 <:+: l2)
    (hb : HasBracePair l1) : HasBracePair l2 := by
  obtain ⟨u, v, huv⟩ := h
  obtain ⟨a, b, c, habc⟩ := hb
  refine ⟨u ++ a, b, c ++ v, ?_⟩
  rw [← huv, habc]
  simp [List.append_assoc]

/-- A successfully parsed top-level JSON object exhibits a brace pair in
the text. -/
theorem jsonParse_obj_brace (s : String) (ms : List (String × Json))
    (h : jsonParse s = some (Json.obj ms)) : HasBracePair s.data := by
  unfold jsonParse at h
  cases hpv : parseValue (s.data.length + 1) s.data with
  | none => rw [hpv] at h; exact Option.noConfusion h
  | some p =>
    obtain ⟨v, rest⟩ := p
    rw [hpv] at h
    simp only [] at h
    by_cases hr : rest.dropWhile isJsonWs = []
    · rw [if_pos hr] at h
      injection h with hv
      subst hv
      rw [parseValue.eq_def] at hpv
      simp only [] at hpv
      split at hpv
      · rename_i r1 heq
        cases hm : parseMembers s.data.length r1 with
        | none => rw [hm] at hpv; exact Option.noConfusion hpv
        | some q =>
          obtain ⟨ms2, r2⟩ := q
          have hbr : '\x7d' ∈ r1 :=
            (parseMembers_rbrace s.data.length).1 r1 ms2 r2 hm
          obtain ⟨b, c, hbc⟩ := List.append_of_mem hbr
          refine ⟨s.data.takeWhile isJsonWs, b, c, ?_⟩
          conv_lhs => rw [← List.takeWhile_append_dropWhile isJsonWs s.data]
          rw [heq, hbc]
      · rename_i r1 heq
        cases hm : parseElems s.data.length r1 with
        | none => rw [hm] at hpv; exact Option.noConfusion hpv
        | some q =>
          obtain ⟨es, r2⟩ := q
          rw [hm] at hpv
          simp at hpv
      · rename_i r1 heq
        cases hps : parseStringBody r1 with
        | none => rw [hps] at hpv; exact Option.noConfusion hpv
        | some q =>
          obtain ⟨sb, r2⟩ := q
          rw [hps] at hpv
          simp at hpv
      · rename_i r1 heq
        split at hpv
        · simp at hpv
        · exact Option.noConfusion hpv
      · rename_i r1 heq
        split at hpv
        · simp at hpv
        · exact Option.noConfusion hpv
      · rename_i r1 heq
        split at hpv
        · simp at hpv
        · exact Option.noConfusion hpv
      · rename_i c r1 n1 n2 n3 n4 n5 n6 heq
        split at hpv
        · cases hn : parseNumberLexeme (c :: r1) with
          | none => rw [hn] at hpv; exact Option.noConfusion hpv
          | some q =>
            obtain ⟨lex, r2⟩ := q
            rw [hn] at hpv
            simp at hpv
        · exact Option.noConfusion hpv
      · exact Option.noConfusion hpv
    · rw [if_neg hr] at h
      exact Option.noConfusion h

/-- Trimming returns an infix block of the text. -/
theorem trimChars_block (l : List Char) : trimChars l <:+: l := by
  unfold trimChars
  have h1 : l.dropWhile jsWs <:+ l := List.dropWhile_suffix jsWs
  have h2 : ((l.dropWhile jsWs).reverse.dropWhile jsWs).reverse
      <+: l.dropWhile jsWs := by
    have h3 : (l.dropWhile jsWs).reverse.dropWhile jsWs
        <:+ (l.dropWhile jsWs).reverse := List.dropWhile_suffix jsWs
    rw [← List.reverse_reverse ((l.dropWhile jsWs).reverse.dropWhile jsWs)]
      at h3
    exact List.reverse_suffix.mp h3
  exact (h2.isInfix).trans (h1.isInfix)

/-- Fence stripping returns an infix block of the text. -/
theorem stripMarkdownFences_block (l : List Char) :
    stripMarkdownFences l <:+: l := by
  unfold stripMarkdownFences
  cases hf : findSubIdx ['`', '`', '`'] l with
  | none => exact List.infix_refl l
  | some i =>
    simp only []
    have hafter : l.drop (i + 3) <:+ l := List.drop_suffix _ l
    have hafter2 :
        (if ['j', 's', 'o', 'n'].isPrefixOf (l.drop (i + 3))
          then (l.drop (i + 3)).drop 4 else l.drop (i + 3)) <:+ l := by
      split
      · exact (List.drop_suffix _ _).trans hafter
      · exact hafter
    have hp : ((if ['j', 's', 'o', 'n'].isPrefixOf (l.drop (i + 3))
          then (l.drop (i + 3)).drop 4 else l.drop (i + 3)).dropWhile jsWs)
        <:+ l := (List.dropWhile_suffix jsWs).trans hafter2
    cases hfc : fenceCloseIdx ((if ['j', 's', 'o', 'n'].isPrefixOf
        (l.drop (i + 3)) then (l.drop (i + 3)).drop 4
        else l.drop (i + 3)).dropWhile jsWs) with
    | none => exact List.infix_refl l
    | some e =>
        exact ((trimChars_block _).trans
          ((List.take_prefix e _).isInfix)).trans hp.isInfix

/-- Index decomposition for the first occurrence of a character. -/
theorem firstIdxOf_decomp (c : Char) :
    ∀ (l : List Char) (i : Nat), firstIdxOf c l = some i →
      ∃ a b, l = a ++ c :: b ∧ a.length = i := by
  intro l
  induction l with
  | nil => intro i h; simp [firstIdxOf] at h
  | cons x rest ih =>
    intro i h
    rw [firstIdxOf.eq_def] at h
    simp only [] at h
    by_cases hx : x = c
    · rw [if_pos hx] at h
      injection h with hi
      exact ⟨[], rest, by rw [hx]; rfl, by rw [← hi]; rfl⟩
    · rw [if_neg hx] at h
      cases hr : firstIdxOf c rest with
      | none => rw [hr] at h; simp at h
      | some j =>
        rw [hr] at h
        simp only [Option.map_some'] at h
        injection h with hi
        obtain ⟨a, b, hab, hlen⟩ := ih j hr
        exact ⟨x :: a, b, by rw [List.cons_append, hab],
          by simp only [List.length_cons, hlen, hi]⟩

/-- Index decomposition for the last occurrence of a character. -/
theorem lastIdxOf_decomp (c : Char) (l : List Char) (i : Nat)
    (h : lastIdxOf c l = some i) :
    ∃ a b, l = a ++ c :: b ∧ a.length = i := by
  unfold lastIdxOf at h
  cases hf : firstIdxOf c l.reverse with
  | none => rw [hf] at h; exact Option.noConfusion h
  | some k =>
    rw [hf] at h
    simp only [] at h
    injection h with hi
    obtain ⟨ar, br, habr, hlenar⟩ := firstIdxOf_decomp c l.reverse k hf
    have hrev : l = br.reverse ++ c :: ar.reverse := by
      have h2 := congrArg List.reverse habr
      rw [List.reverse_reverse] at h2
      rw [h2]
      simp [List.reverse_append, List.reverse_cons, List.append_assoc]
    have hlen : l.length = ar.length + 1 + br.length := by
      have h3 := congrArg List.length habr
      simp only [List.length_reverse, List.length_append,
        List.length_cons] at h3
      omega
    refine ⟨br.reverse, ar.reverse, hrev, ?_⟩
    rw [List.length_reverse]
    omega

/-- Overlapping decompositions with the opening brace strictly before the
closing brace exhibit a brace pair. -/
theorem overlap_brace (a b a2 b2 : List Char)
    (h : a ++ '\x7b' :: b = a2 ++ '\x7d' :: b2)
    (hlt : a.length < a2.length) : HasBracePair (a ++ '\x7b' :: b) := by
  have hd := congrArg (List.drop a.length) h
  rw [List.drop_left, List.drop_append_eq_append_drop,
    show a.length - a2.length = 0 from by omega, List.drop_zero] at hd
  cases hda : a2.drop a.length with
  | nil =>
    have hcon : (a2.drop a.length).length = 0 := by rw [hda]; rfl
    rw [List.length_drop] at hcon
    omega
  | cons d t =>
    rw [hda] at hd
    simp only [List.cons_append] at hd
    injection hd with h1 h2
    exact ⟨a, t, b2, by rw [h2]⟩

/-- A non-empty brace slice exhibits a brace pair in its input. -/
theorem extractJsonObject_brace_pair (l : List Char)
    (h : extractJsonObject l ≠ []) : HasBracePair l := by
  unfold extractJsonObject at h
  cases h1 : firstIdxOf '\x7b' l with
  | none => rw [h1] at h; simp at h
  | some fi =>
    cases h2 : lastIdxOf '\x7d' l with
    | none => rw [h1, h2] at h; simp at h
    | some lb =>
      rw [h1, h2] at h
      simp only [] at h
      by_cases hle : lb ≤ fi
      · rw [if_pos hle] at h
        exact absurd rfl h
      · obtain ⟨a, b, hab, hlena⟩ := firstIdxOf_decomp '\x7b' l fi h1
      
        obtain ⟨a2, b2, hab2, hlena2⟩ := lastIdxOf_decomp '\x7d' l lb h2
        rw [hab]
        exact overlap_brace a b a2 b2 (by rw [← hab, hab2]) (by omega)

/-- On input with no brace pair, the direct parse cannot produce a payload:
the schema requires a top-level object. -/
theorem tryParseAndValidate_noBrace (raw : String)
    (h : ¬ HasBracePair raw.data) :
    (tryParseAndValidate raw).parsed = none := by
  unfold tryParseAndValidate
  cases hj : jsonParse raw with
  | none => rfl
  | some j =>
    cases j with
    | obj ms => exact absurd (jsonParse_obj_brace raw ms hj) h
    | arr es => rfl
    | str s2 => rfl
    | num n2 => rfl
    | boolean b2 => rfl
    | null => rfl

/-- On input with no brace pair, the repair pipeline fails with the
explicit missing-object error: the direct parse cannot yield an object, and
the brace slice of the fence-stripped text (an infix of the input) is
empty. -/
theorem repair_noBracePair (raw : String) (h : ¬ HasBracePair raw.data) :
    repairAndParseJson raw
      = { parsed := none, error := some "No JSON object found in input" } := by
  have hdirect := tryParseAndValidate_noBrace raw h
  have hextract : extractJsonObject (stripMarkdownFences raw.data) = [] := by
    by_contra hne
    exact h (hasBracePair_mono (stripMarkdownFences_block raw.data)
      (extractJsonObject_brace_pair _ hne))
  simp only [repairAndParseJson]
  rw [hdirect, if_neg (by decide), if_pos hextract]

/-- The clean JSON of a safe payload parses directly through the repair
entry point. -/
theorem repair_clean (p : LlmResponsePayload) (hp : SafePayload p) :
    repairAndParseJson (stringifyPayload p)
      = { parsed := some p, error := none } := by
  simp only [repairAndParseJson]
  rw [tryParseAndValidate_stringifyPayload p hp,
    if_pos (show ({ parsed := some p, error := none }
      : RepairResult).parsed.isSome = true from rfl)]

/-- A brace pair contains an opening brace. -/
theorem hasBracePair_mem {l : List Char} (h : HasBracePair l) :
    '\x7b' ∈ l := by
  obtain ⟨a, b, c, habc⟩ := h
  rw [habc]
  exact List.mem_append_right a (List.mem_cons_self _ _)

instance (o : Option String) : Decidable (SafeOptString o) :=
  match o with
  | none => isTrue trivial
  | some s => inferInstanceAs (Decidable (SafeString s))

instance (p : LlmResponsePayload) : Decidable (SafePayload p) :=
  inferInstanceAs (Decidable (SafeString p.answerText
    ∧ SafeOptString p.notes
    ∧ ∀ c ∈ p.citations,
        SafeString c.url ∧ SafeOptString c.title ∧ SafeOptString c.snippet))

set_option maxRecDepth 100000

/-- A safe sample payload exercising every optional field. -/
def c8SamplePayload : LlmResponsePayload :=
  { answerText := "The answer is 42."
    citations := [{ url := "https://example.org/a"
                    title := some "Example"
                    snippet := none }]
    notes := some "ok" }

/-- A payload whose answer text contains a typographic apostrophe: the
repair pipeline's quote normalization rewrites it. -/
def c8SmartPayload : LlmResponsePayload :=
  { answerText := "don’t"
    citations := []
    notes := none }

/-- C8: for every schema-valid payload whose string fields use only
characters the repair heuristics pass through untouched (printable, no
quotes, backslashes, braces, brackets, backticks, or typographic quotes),
wrapping the clean JSON in Markdown fences, replacing its quotes with
typographic quotes, and adding a trailing comma before the closing brace
yields an input that `repairAndParseJson` parses to the same structured
result as the clean JSON (namely the payload itself); and every input
string with no `\x7b`/`\x7d` pair yields a null parsed payload with the
"No JSON object found in input" error. -/
theorem c8_repair_pipeline :
    (∀ p : LlmResponsePayload, SafePayload p →
        repairAndParseJson (specTransform (stringifyPayload p))
          = { parsed := some p, error := none }
        ∧ repairAndParseJson (stringifyPayload p)
          = { parsed := some p, error := none })
    ∧ (∀ raw : String, ¬ HasBracePair raw.data →
        repairAndParseJson raw
          = { parsed := none, error := some "No JSON object found in input" }) := by
  constructor
  · intro p hp
    exact ⟨repair_specTransform p hp, repair_clean p hp⟩
  · intro raw hraw
    exact repair_noBracePair raw hraw

/-- C8 counterexample: the spec's round-trip claim quantifies over every
valid payload, but a payload whose answer text itself contains a
typographic apostrophe is rewritten by the quote-normalization step — the
transformed input parses to a different payload than the clean JSON
does. -/
theorem c8_repair_pipeline_counterexample :
    (repairAndParseJson (specTransform (stringifyPayload c8SmartPayload))).parsed
      ≠ (repairAndParseJson (stringifyPayload c8SmartPayload)).parsed
    ∧ (repairAndParseJson (stringifyPayload c8SmartPayload)).parsed
      = some c8SmartPayload := by
  constructor
  · decide
  · decide

/-- C8 witness: the round trip on a concrete safe payload, and the
missing-object error on a concrete brace-free input. -/
theorem c8_repair_pipeline_witness :
    repairAndParseJson (specTransform (stringifyPayload c8SamplePayload))
      = { parsed := some c8SamplePayload, error := none }
    ∧ repairAndParseJson (String.mk ['n', 'o', 'p', 'e'])
      = { parsed := none, error := some "No JSON object found in input" } :=
  ⟨(c8_repair_pipeline.1 c8SamplePayload (by decide)).1,
    c8_repair_pipeline.2 (String.mk ['n', 'o', 'p', 'e'])
      (fun hb => absurd (hasBracePair_mem hb) (by decide))⟩

/-- Ranked-question configuration carried in the execute payload
(`questionConfig` of `ExecuteQuestionPayload` in `lib/queue.ts`). -/
structure QuestionConfig where
  scalePreset : String
  scaleMin : Int
  scaleMax : Int
  includeReasoning : Bool
deriving DecidableEq, Repr

/-- The `ExecuteQuestionPayload` of `lib/queue.ts`. -/
structure ExecuteQuestionPayload where
  jobId : String
  runId : String
  modelTargetId : String
  questionId : String
  threadKey : String
  renderedPrompt : String
  questionMode : String
  questionType : Option String
  questionConfig : Option QuestionConfig
deriving DecidableEq, Repr

/-- An `LlmResponse` row restricted to the columns the handler writes from
parse results (`usageJson` and `costUsd` are dropped together with the cost
arithmetic). -/
structure LlmResponseRec where
  id : String
  runId : String
  modelTargetId : String
  questionId : String
  threadKey : String
  rawText : String
  parsedJson : Option LlmResponsePayload
  citationsJson : Option (List Citation)
  latencyMs : Nat
deriving DecidableEq, Repr

/-- Outcome of the provider call: a returned response, or a thrown
invocation error (network, auth, malformed request). -/
inductive ProviderOutcome where
  | success (text : String) (latencyMs : Nat)
  | failure (message : String)
deriving DecidableEq, Repr

/-- The database state `handleExecuteQuestion` touches: job rows, response
rows, and the run row the completion arbiter may rewrite.  Conversation
threads (step 7) and audit events are outside the modelled columns. -/
structure ExecState where
  jobs : List JobRec
  responses : List LlmResponseRec
  run : RunRecord
deriving Repr

/-- `prisma.job.update` writing a terminal status, finish time, and error
note to the job with the given id. -/
def updateJobStatus (jobId : String) (st : JobStatus) (now : Nat)
    (err : Option String) (jobs : List JobRec) : List JobRec :=
  jobs.map (fun j =>
    if j.id = jobId then
      { j with status := st, finishedAt := some now, lastError := err }
    else j)

/-- `enqueueAnalyzeJob` of `lib/queue.ts`: create a PENDING
`ANALYZE_RESPONSE` job row with the derived thread and idempotency keys. -/
def enqueueAnalyzeJob (newJobId runId responseId : String)
    (jobs : List JobRec) : List JobRec :=
  jobs ++ [{ id := newJobId
             runId := runId
             type := JobType.ANALYZE_RESPONSE
             status := JobStatus.PENDING
             attempt := 0
             startedAt := none
             finishedAt := none
             lastError := none
             threadKey := "analyze-" ++ responseId
             idempotencyKey := "analyze:" ++ responseId }]

/-- Shallow embedding of `handleExecuteQuestion` from
`worker/handlers/execute-question.ts`.  The provider call (steps 1–3) is an
oracle outcome; generated row ids are supplied by the caller.  On a
response: parse via `repairAndParseJson` (step 4), persist the
`LlmResponse` with a null parsed payload on parse failure (step 6), mark
the job `SUCCEEDED` with the parse error as its error note (step 8),
enqueue the `ANALYZE_RESPONSE` job (step 9), and run the completion check
(step 10).  On a thrown provider error: mark the job `FAILED` with the
message and still run the completion check. -/
def handleExecuteQuestion (now : Nat) (p : ExecuteQuestionPayload)
    (outcome : ProviderOutcome) (newResponseId newJobId : String)
    (st : ExecState) : ExecState :=
  match outcome with
  | ProviderOutcome.failure msg =>
    let jobs1 := updateJobStatus p.jobId JobStatus.FAILED now (some msg) st.jobs
    { st with jobs := jobs1, run := checkRunCompletion now p.runId jobs1 st.run }
  | ProviderOutcome.success text latencyMs =>
    let rep := repairAndParseJson text
    let llmResponse : LlmResponseRec :=
      { id := newResponseId
        runId := p.runId
        modelTargetId := p.modelTargetId
        questionId := p.questionId
        threadKey := p.threadKey
        rawText := text
        parsedJson := rep.parsed
        citationsJson := rep.parsed.map (fun q => q.citations)
        latencyMs := latencyMs }
    let jobs1 := updateJobStatus p.jobId JobStatus.SUCCEEDED now rep.error st.jobs
    let jobs2 := enqueueAnalyzeJob newJobId p.runId newResponseId jobs1
    { jobs := jobs2
      responses := st.responses ++ [llmResponse]
      run := checkRunCompletion now p.runId jobs2 st.run }

/-- C6: for every execution job whose provider call returns a response
with unparseable text, the handler still marks the job `SUCCEEDED` — with
the parse error recorded as the job's error note — and persists the
`LlmResponse` with a null parsed payload; for every job whose provider
invocation throws, the handler marks the job `FAILED` with the error
message and still invokes the run-completion check on the updated jobs. -/
theorem c6_parse_failure_handling :
    (∀ (now : Nat) (p : ExecuteQuestionPayload) (text : String) (lat : Nat)
        (rid jid : String) (st : ExecState) (e : String),
      repairAndParseJson text = { parsed := none, error := some e } →
      (∀ j ∈ st.jobs, j.id = p.jobId →
        { j with status := JobStatus.SUCCEEDED, finishedAt := some now, lastError := some e }
          ∈ (handleExecuteQuestion now p (ProviderOutcome.success text lat)
              rid jid st).jobs)
      ∧ ∃ resp ∈ (handleExecuteQuestion now p
            (ProviderOutcome.success text lat) rid jid st).responses,
          resp.id = rid ∧ resp.rawText = text ∧ resp.parsedJson = none)
    ∧ (∀ (now : Nat) (p : ExecuteQuestionPayload) (msg : String)
        (rid jid : String) (st : ExecState),
      (∀ j ∈ st.jobs, j.id = p.jobId →
        { j with status := JobStatus.FAILED, finishedAt := some now, lastError := some msg }
          ∈ (handleExecuteQuestion now p (ProviderOutcome.failure msg)
              rid jid st).jobs)
      ∧ (handleExecuteQuestion now p (ProviderOutcome.failure msg)
            rid jid st).run
          = checkRunCompletion now p.runId
              (handleExecuteQuestion now p (ProviderOutcome.failure msg)
                rid jid st).jobs st.run) := by
  constructor
  · intro now p text lat rid jid st e hrep
    have herr : (repairAndParseJson text).error = some e := by rw [hrep]
    have hpar : (repairAndParseJson text).parsed = none := by rw [hrep]
    constructor
    · intro j hj hid
      simp only [handleExecuteQuestion, enqueueAnalyzeJob, updateJobStatus,
        herr]
      apply List.mem_append_left
      refine List.mem_map.mpr ⟨j, hj, ?_⟩
      rw [if_pos hid]
    · refine ⟨_, List.mem_append_right _ (List.mem_singleton.mpr rfl),
        rfl, rfl, ?_⟩
      show (repairAndParseJson text).parsed = none
      exact hpar
  · intro now p msg rid jid st
    constructor
    · intro j hj hid
      simp only [handleExecuteQuestion, updateJobStatus]
      refine List.mem_map.mpr ⟨j, hj, ?_⟩
      rw [if_pos hid]
    · rfl

/-- C7: the handler enqueues the `ANALYZE_RESPONSE` follow-on job after
every provider response, even when the question is ranked with reasoning
disabled — the payload's `questionType` and `questionConfig` are never
consulted, so no opt-out happens. -/
theorem c7_analyze_always_enqueued :
    ∀ (now : Nat) (p : ExecuteQuestionPayload) (text : String) (lat : Nat)
      (rid jid : String) (st : ExecState),
      p.questionType = some "RANKED" →
      (∃ cfg, p.questionConfig = some cfg ∧ cfg.includeReasoning = false) →
      ∃ j ∈ (handleExecuteQuestion now p (ProviderOutcome.success text lat)
          rid jid st).jobs,
        j.type = JobType.ANALYZE_RESPONSE
          ∧ j.idempotencyKey = "analyze:" ++ rid ∧ j.id = jid := by
  intro now p text lat rid jid st hqt hcfg
  refine ⟨{ id := jid
            runId := p.runId
            type := JobType.ANALYZE_RESPONSE
            status := JobStatus.PENDING
            attempt := 0
            startedAt := none
            finishedAt := none
            lastError := none
            threadKey := "analyze-" ++ rid
            idempotencyKey := "analyze:" ++ rid }, ?_, rfl, rfl, rfl⟩
  simp only [handleExecuteQuestion, enqueueAnalyzeJob]
  exact List.mem_append_right _ (List.mem_singleton.mpr rfl)

/-- A concrete execute payload for a stateless question. -/
def c6Payload : ExecuteQuestionPayload :=
  { jobId := "jobA"
    runId := "run1"
    modelTargetId := "m1"
    questionId := "q1"
    threadKey := "t1"
    renderedPrompt := "p"
    questionMode := "STATELESS"
    questionType := none
    questionConfig := none }

/-- The execution job row the payload targets. -/
def c6Job : JobRec :=
  { id := "jobA"
    runId := "run1"
    type := JobType.EXECUTE_QUESTION
    status := JobStatus.RUNNING
    attempt := 1
    startedAt := some 1
    finishedAt := none
    lastError := none
    threadKey := "t1"
    idempotencyKey := "k1" }

/-- A one-job running state. -/
def c6State : ExecState :=
  { jobs := [c6Job]
    responses := []
    run := { status := RunStatus.RUNNING, completedAt := none, createdById := "u1" } }

/-- C6 witness: a provider response reading `oops` fails every repair
strategy, yet the job lands on `SUCCEEDED` with the parse error note and a
null-parse response row; a thrown provider error lands the job on `FAILED`
and the completion check still runs. -/
theorem c6_parse_failure_handling_witness :
    ((∀ j ∈ c6State.jobs, j.id = c6Payload.jobId →
        { j with status := JobStatus.SUCCEEDED, finishedAt := some 5, lastError := some "No JSON object found in input" }
          ∈ (handleExecuteQuestion 5 c6Payload (ProviderOutcome.success "oops" 7)
              "r1" "j2" c6State).jobs)
      ∧ ∃ resp ∈ (handleExecuteQuestion 5 c6Payload
            (ProviderOutcome.success "oops" 7) "r1" "j2" c6State).responses,
          resp.id = "r1" ∧ resp.rawText = "oops" ∧ resp.parsedJson = none)
    ∧ ((∀ j ∈ c6State.jobs, j.id = c6Payload.jobId →
        { j with status := JobStatus.FAILED, finishedAt := some 5, lastError := some "boom" }
          ∈ (handleExecuteQuestion 5 c6Payload (ProviderOutcome.failure "boom")
              "r1" "j2" c6State).jobs)
      ∧ (handleExecuteQuestion 5 c6Payload (ProviderOutcome.failure "boom")
            "r1" "j2" c6State).run
          = checkRunCompletion 5 c6Payload.runId
              (handleExecuteQuestion 5 c6Payload (ProviderOutcome.failure "boom")
                "r1" "j2" c6State).jobs c6State.run) :=
  ⟨c6_parse_failure_handling.1 5 c6Payload "oops" 7 "r1" "j2" c6State
      "No JSON object found in input" (by decide),
    c6_parse_failure_handling.2 5 c6Payload "boom" "r1" "j2" c6State⟩

/-- A concrete ranked-question payload with reasoning disabled: per the
spec this question opts out of analysis. -/
def c7Payload : ExecuteQuestionPayload :=
  { jobId := "jobB"
    runId := "run2"
    modelTargetId := "m2"
    questionId := "q2"
    threadKey := "t2"
    renderedPrompt := "rate this"
    questionMode := "STATELESS"
    questionType := some "RANKED"
    questionConfig := some { scalePreset := "ONE_TO_TEN"
                             scaleMin := 1
                             scaleMax := 10
                             includeReasoning := false } }

/-- The job row and state for the ranked payload. -/
def c7State : ExecState :=
  { jobs := [{ id := "jobB"
               runId := "run2"
               type := JobType.EXECUTE_QUESTION
               status := JobStatus.RUNNING
               attempt := 1
               startedAt := some 1
               finishedAt := none
               lastError := none
               threadKey := "t2"
               idempotencyKey := "k2" }]
    responses := []
    run := { status := RunStatus.RUNNING, completedAt := none, createdById := "u2" } }

/-- C7 witness: on the concrete ranked no-reasoning payload the handler
still creates the analysis job. -/
theorem c7_analyze_always_enqueued_witness :
    ∃ j ∈ (handleExecuteQuestion 5 c7Payload (ProviderOutcome.success "x" 7)
        "r9" "j9" c7State).jobs,
      j.type = JobType.ANALYZE_RESPONSE
        ∧ j.idempotencyKey = "analyze:" ++ "r9" ∧ j.id = "j9" :=
  c7_analyze_always_enqueued 5 c7Payload "x" 7 "r9" "j9" c7State rfl
    ⟨{ scalePreset := "ONE_TO_TEN", scaleMin := 1, scaleMax := 10, includeReasoning := false },
      rfl, rfl⟩

end AiSurvey
